import Mathlib

/-!
Verification development for the AI-portfolio-2021 repository.

The repository holds two independent Python programs:

* `minesweeper/minesweeper.py` — a Minesweeper board model (`Minesweeper`),
  a logical constraint object (`Sentence`) and a knowledge-based agent
  (`MinesweeperAI`).
* `Twitter AI/twitter.py` — a tweet text-cleaning and classification
  pipeline.

This file is a shallow embedding of those programs.  Python `set`s of board
cells become `Finset Cell`; Python `list`s become `List`; Python integers
become `Int` (they can go negative through `Sentence.__sub__` and through
negative indexing); loops over Python sets, whose iteration order is
unspecified, are modelled by folding over a canonical enumeration of the
`Finset` (the fold targets are proved order-independent where a proof needs
it); the unbounded `while`/growing-list loops of `add_knowledge` and of the
mine-placement loop of `Minesweeper.__init__` are modelled with explicit
fuel, returning `none` when the fuel runs out, so that both termination and
non-termination are expressible.
-/

namespace MinesPort

/-- A board cell.  Python represents cells as tuples of machine integers;
both coordinates can be negative (neighbour enumeration produces `x - 1`),
so the embedding uses `Int × Int`. -/
abbrev Cell := Int × Int

/-- A total order on cells (row-major).  Python iterates sets in an
unspecified order; every set-iterating loop in the source is
order-independent, and the embedding fixes this canonical order for its
enumerations. -/
def cellRel (a b : Cell) : Prop :=
  a.1 < b.1 ∨ (a.1 = b.1 ∧ a.2 ≤ b.2)

instance : DecidableRel cellRel := fun a b =>
  inferInstanceAs (Decidable (a.1 < b.1 ∨ (a.1 = b.1 ∧ a.2 ≤ b.2)))

instance : IsTrans Cell cellRel := by
  constructor
  intro a b c hab hbc
  unfold cellRel at *
  rcases hab with h | ⟨h1, h2⟩ <;> rcases hbc with g | ⟨g1, g2⟩ <;> omega

instance : IsAntisymm Cell cellRel := by
  constructor
  intro a b hab hba
  unfold cellRel at *
  rw [Prod.ext_iff]
  constructor <;> omega

instance : IsTotal Cell cellRel := by
  constructor
  intro a b
  unfold cellRel
  omega

/-- Canonical enumeration of a set of cells, used to model Python's
(order-unspecified) iteration over a `set` of cells.  (Insertion sort on
the underlying multiset: two permuted lists sort to the same sorted list,
so the lift is well defined.) -/
def sortCells (s : Finset Cell) : List Cell :=
  Quot.liftOn s.val (List.insertionSort cellRel) fun l1 l2 h =>
    List.eq_of_perm_of_sorted
      ((List.perm_insertionSort cellRel l1).trans
        (h.trans (List.perm_insertionSort cellRel l2).symm))
      (List.sorted_insertionSort cellRel l1)
      (List.sorted_insertionSort cellRel l2)

theorem sortCells_coe (s : Finset Cell) : (sortCells s : Multiset Cell) = s.val := by
  cases s with
  | mk val nd =>
    induction val using Quot.ind with
    | _ l =>
      show ((List.insertionSort cellRel l : List Cell) : Multiset Cell) = _
      exact Quot.sound (List.perm_insertionSort cellRel l)

theorem mem_sortCells {s : Finset Cell} {c : Cell} : c ∈ sortCells s ↔ c ∈ s := by
  rw [← Multiset.mem_coe, sortCells_coe]
  rfl

theorem sortCells_nodup (s : Finset Cell) : (sortCells s).Nodup := by
  have h : ((sortCells s : Multiset Cell)).Nodup := by
    rw [sortCells_coe]
    exact s.nodup
  exact h

theorem sortCells_toFinset (s : Finset Cell) : (sortCells s).toFinset = s := by
  ext x
  rw [List.mem_toFinset, mem_sortCells]

theorem sortCells_empty : sortCells ∅ = [] := rfl

theorem sortCells_length (s : Finset Cell) : (sortCells s).length = s.card := by
  have h : Multiset.card (sortCells s : Multiset Cell) = Multiset.card s.val := by
    rw [sortCells_coe]
  simpa using h

/-! ## The `Sentence` class (`minesweeper.py`, lines 87–180)

A sentence is a set of cells plus a count: "exactly `count` of these cells
are mines".  `__init__` deduplicates the cells into a set; the count is a
Python integer (it can become negative via `__sub__`). -/

structure Sentence where
  cells : Finset Cell
  count : Int
deriving DecidableEq

/-- Source `Sentence.__eq__` when the right operand is another `Sentence`
(line 105): cell sets equal and counts equal. -/
def sentenceEq (s t : Sentence) : Bool :=
  s.cells = t.cells ∧ s.count = t.count

/-- Source `Sentence.__eq__` when the right operand is an `int` (lines 102–103):
the comparison answers whether the sentence has exactly `other` cells
(`len(self.cells) == other`), ignoring the count. -/
def sentenceEqInt (s : Sentence) (n : Int) : Bool :=
  (s.cells.card : Int) = n

/-- Source `Sentence.__sub__` (lines 110–118): cells are the set difference,
counts subtract. -/
def Sentence.sub (s t : Sentence) : Sentence :=
  ⟨s.cells \ t.cells, s.count - t.count⟩

/-- Source `Sentence.known_mines` (lines 120–133): all cells are mines exactly when
the cell count equals `count`. -/
def Sentence.known_mines (s : Sentence) : Finset Cell :=
  if (s.cells.card : Int) = s.count then s.cells else ∅

/-- Source `Sentence.known_safes` (lines 135–146): all cells are safe exactly when
`count` is zero. -/
def Sentence.known_safes (s : Sentence) : Finset Cell :=
  if s.count = 0 then s.cells else ∅

/-- Source `Sentence.mark_mine` (lines 148–163): if the cell is present, remove it
and decrement the count; otherwise do nothing. -/
def Sentence.mark_mine (s : Sentence) (c : Cell) : Sentence :=
  if c ∈ s.cells then ⟨s.cells.erase c, s.count - 1⟩ else s

/-- Source `Sentence.mark_safe` (lines 165–180): if the cell is present, remove it;
the count is unchanged; otherwise do nothing. -/
def Sentence.mark_safe (s : Sentence) (c : Cell) : Sentence :=
  if c ∈ s.cells then ⟨s.cells.erase c, s.count⟩ else s

theorem mark_safe_eq (s : Sentence) (c : Cell) :
    s.mark_safe c = ⟨s.cells.erase c, s.count⟩ := by
  unfold Sentence.mark_safe
  split
  · rfl
  · rename_i h
    rw [Finset.erase_eq_of_not_mem h]

theorem mark_mine_eq (s : Sentence) (c : Cell) :
    s.mark_mine c = ⟨s.cells.erase c, s.count - (if c ∈ s.cells then 1 else 0)⟩ := by
  unfold Sentence.mark_mine
  split
  · rename_i h
    simp [h]
  · rename_i h
    simp [h, Finset.erase_eq_of_not_mem h]

/-! ## The `Minesweeper` class (`minesweeper.py`, lines 5–84)

The board holds its dimensions, the set of mine coordinates, a boolean grid
mirroring that set, and the set of mines the external caller has flagged. -/

structure Board where
  height : Nat
  width : Nat
  mines : Finset Cell
  board : List (List Bool)
  mines_found : Finset Cell

instance : DecidableEq Board := fun a b =>
  decidable_of_iff
    (a.height = b.height ∧ a.width = b.width ∧ a.mines = b.mines ∧
      a.board = b.board ∧ a.mines_found = b.mines_found)
    (by cases a; cases b; rw [Board.mk.injEq])

/-- Python list indexing `l[i]`: an index in `[0, len)` reads directly, an
index in `[-len, 0)` wraps around to `l[len + i]`, and anything else raises
`IndexError` (modelled as `none`). -/
def pyGet {α : Type} (l : List α) (i : Int) : Option α :=
  if 0 ≤ i then l.get? i.toNat
  else if 0 ≤ i + l.length then l.get? (i + l.length).toNat
  else none

/-- Source `Minesweeper.is_mine` (lines 51–53): `self.board[i][j]`, with Python
indexing semantics on both the row list and the row. -/
def isMine (b : Board) (cell : Cell) : Option Bool :=
  (pyGet b.board cell.1).bind fun row => pyGet row cell.2

/-- The nine candidate offsets `(i, j)` for `i` in `range(x-1, x+2)` and `j`
in `range(y-1, y+2)`, in Python's loop order. -/
def candidateList (x y : Int) : List Cell :=
  [(x-1, y-1), (x-1, y), (x-1, y+1),
   (x,   y-1), (x,   y), (x,   y+1),
   (x+1, y-1), (x+1, y), (x+1, y+1)]

/-- Source `Minesweeper.nearby_mines` (lines 55–78): count mines among the 3×3
neighbourhood of `cell`, skipping `cell` itself, counting only positions
with `0 <= i < height` and `0 <= j < width`.  The board reads inside the
guard are modelled with `pyGet`; a failing read (impossible on a well-formed
board, since the guard keeps indices in range) propagates as `none`. -/
def nearbyMines (b : Board) (cell : Cell) : Option Nat :=
  (candidateList cell.1 cell.2).foldl
    (fun acc c =>
      acc.bind fun n =>
        if c = cell then some n
        else if 0 ≤ c.1 ∧ c.1 < (b.height : Int) ∧ 0 ≤ c.2 ∧ c.2 < (b.width : Int) then
          (isMine b c).map fun m => if m then n + 1 else n
        else some n)
    (some 0)

/-- Source `Minesweeper.won` (lines 80–84): all mines flagged, no extras. -/
def won (b : Board) : Bool :=
  b.mines_found = b.mines

/-- The all-`False` grid built by `Minesweeper.__init__` (lines 17–23). -/
def initGrid (h w : Nat) : List (List Bool) :=
  List.replicate h (List.replicate w false)

/-- Read the grid at nonnegative coordinates. -/
def gridAt (g : List (List Bool)) (i j : Nat) : Option Bool :=
  (g.get? i).bind fun row => row.get? j

/-- Set one entry of a row to `True`. -/
def setRow : List Bool → Nat → List Bool
  | [], _ => []
  | _ :: bs, 0 => true :: bs
  | b :: bs, n + 1 => b :: setRow bs n

/-- Set `grid[i][j] = True`. -/
def setGrid : List (List Bool) → Nat → Nat → List (List Bool)
  | [], _, _ => []
  | r :: rs, 0, j => setRow r j :: rs
  | r :: rs, i + 1, j => r :: setGrid rs i j

/-- The mine-placement loop of `Minesweeper.__init__` (lines 26–31):
`while len(self.mines) != mines`, draw `(i, j)` from the random source
(`src k` is the k-th draw pair, standing for
`random.randrange(height), random.randrange(width)`), and mark the cell if
`not self.board[i][j]`.  The loop is unbounded, so it takes fuel; a grid
read outside the grid (only possible if the source draws out of range)
propagates as `none`, as the Python `IndexError` would. -/
def placeLoop : Nat → (Nat → Nat × Nat) → Nat → Nat → Finset Cell →
    List (List Bool) → Option (Finset Cell × List (List Bool))
  | 0, _, _, _, _, _ => none
  | fuel + 1, src, target, k, mines, grid =>
    if mines.card = target then some (mines, grid)
    else
      let ij := src k
      match gridAt grid ij.1 ij.2 with
      | none => none
      | some true => placeLoop fuel src target (k + 1) mines grid
      | some false =>
        placeLoop fuel src target (k + 1)
          (insert ((ij.1 : Int), (ij.2 : Int)) mines) (setGrid grid ij.1 ij.2)

/-- Source `Minesweeper.__init__` (lines 10–34): empty grid, then the placement
loop, then an empty `mines_found`. -/
def mkBoard (fuel : Nat) (height width minesCount : Nat) (src : Nat → Nat × Nat) :
    Option Board :=
  (placeLoop fuel src minesCount 0 ∅ (initGrid height width)).map fun mg =>
    ⟨height, width, mg.1, mg.2, ∅⟩

/-! ## The `MinesweeperAI` class (`minesweeper.py`, lines 183–411) -/

structure AIState where
  height : Nat
  width : Nat
  moves_made : Finset Cell
  mines : Finset Cell
  safes : Finset Cell
  knowledge : List Sentence

instance : DecidableEq AIState := fun a b =>
  decidable_of_iff
    (a.height = b.height ∧ a.width = b.width ∧ a.moves_made = b.moves_made ∧
      a.mines = b.mines ∧ a.safes = b.safes ∧ a.knowledge = b.knowledge)
    (by cases a; cases b; rw [AIState.mk.injEq])

/-- Source `MinesweeperAI.__init__` (lines 188–202). -/
def freshAI (height width : Nat) : AIState :=
  ⟨height, width, ∅, ∅, ∅, []⟩

/-- Source `MinesweeperAI.mark_mine` (lines 204–211): add the cell to `mines` and
cascade `Sentence.mark_mine` through every sentence of the knowledge base. -/
def AIState.mark_mine (st : AIState) (c : Cell) : AIState :=
  { st with
    mines := insert c st.mines
    knowledge := st.knowledge.map (·.mark_mine c) }

/-- Source `MinesweeperAI.mark_safe` (lines 213–220). -/
def AIState.mark_safe (st : AIState) (c : Cell) : AIState :=
  { st with
    safes := insert c st.safes
    knowledge := st.knowledge.map (·.mark_safe c) }

/-- Loop `for c in new_safe: self.mark_safe(c)` (lines 323–325): the set is
iterated in the canonical cell order (the per-cell marks commute, so any
order gives the same state). -/
def markSafeAll (st : AIState) (cs : Finset Cell) : AIState :=
  (sortCells cs).foldl AIState.mark_safe st

/-- Loop `for c in new_mine: self.mark_mine(c)` (lines 327–329). -/
def markMineAll (st : AIState) (cs : Finset Cell) : AIState :=
  (sortCells cs).foldl AIState.mark_mine st

/-- The neighbour set built in `add_knowledge` step 3 (lines 255–264):
in-bounds cells of the 3×3 block around `cell`, excluding `cell` itself. -/
def surroundingCells (height width : Nat) (cell : Cell) : Finset Cell :=
  ((candidateList cell.1 cell.2).filter fun c =>
    decide (c ≠ cell ∧ 0 ≤ c.1 ∧ c.1 < (height : Int) ∧ 0 ≤ c.2 ∧ c.2 < (width : Int))).toFinset

/-- One step of the in-place simplification loop over the new sentence
(lines 276–280): `if c in self.safes: mark_safe(c)` then
`if c in self.mines: mark_mine(c)`. -/
def simpStep (safes mines : Finset Cell) (s : Sentence) (c : Cell) : Sentence :=
  let s1 := if c ∈ safes then s.mark_safe c else s
  if c ∈ mines then s1.mark_mine c else s1

/-- The simplification loop of `add_knowledge` step 3 (lines 274–280): runs
over a copy of the new sentence's cells (canonical order; the per-cell steps
commute). -/
def simplifyNew (safes mines : Finset Cell) (s : Sentence) : Sentence :=
  (sortCells s.cells).foldl (simpStep safes mines) s

/-- Accumulation of `known_safes` over the knowledge base (lines 306–310). -/
def newSafes (kb : List Sentence) : Finset Cell :=
  kb.foldl (fun acc s => acc ∪ s.known_safes) ∅

/-- Accumulation of `known_mines` over the knowledge base (lines 306–310). -/
def newMines (kb : List Sentence) : Finset Cell :=
  kb.foldl (fun acc s => acc ∪ s.known_mines) ∅

/-- The knowledge-base clean-up (lines 338–342): keep the sentences for
which `sentence != 0`, i.e. those whose `__eq__`-against-`0` — which
compares `len(cells)` with `0` — is false. -/
def purge (kb : List Sentence) : List Sentence :=
  kb.filter fun s => !(sentenceEqInt s 0)

/-- The inner `for sentence1 in self.knowledge` loop of `add_knowledge`
step 5 (lines 350–365), for a fixed outer sentence `s`.  Python iterates the
live list by index, so appends made during the loop are visited too; `j` is
the iterator index and the loop ends only when `j` reaches the current
length — which may never happen, hence the fuel. -/
def innerD : Nat → List Sentence → Sentence → Nat → Bool → Option (List Sentence × Bool)
  | 0, _, _, _, _ => none
  | fuel + 1, kb, s, j, ch =>
    match kb.get? j with
    | none => some (kb, ch)
    | some s1 =>
      if s = s1 then innerD fuel kb s (j + 1) ch
      else if s.cells ⊆ s1.cells then
        let ns := s1.sub s
        if ns ∈ kb then innerD fuel kb s (j + 1) ch
        else innerD fuel (kb ++ [ns]) s (j + 1) false
      else innerD fuel kb s (j + 1) ch

/-- The outer `for sentence in self.knowledge` loop of `add_knowledge`
step 5 (lines 349–365); `i` is the outer iterator index over the live
list. -/
def outerD : Nat → List Sentence → Nat → Bool → Option (List Sentence × Bool)
  | 0, _, _, _ => none
  | fuel + 1, kb, i, ch =>
    match kb.get? i with
    | none => some (kb, ch)
    | some s =>
      match innerD (fuel + 1) kb s 0 ch with
      | none => none
      | some kbch => outerD fuel kbch.1 (i + 1) kbch.2

/-- The marking stage of one `while` pass (lines 298–329): gather
`new_safe`/`new_mine` from the current knowledge base, then mark all new
safes, then all new mines (both gathered before any marking, as in the
source). -/
def passMarked (st : AIState) : AIState :=
  markMineAll (markSafeAll st (newSafes st.knowledge)) (newMines st.knowledge)

/-- One full iteration of the `while consistent == False` body
(lines 294–365): set `consistent` from the gathered sets, mark, purge, then
run the subset-subtraction stage (which can clear `consistent` again). -/
def runPass (fuel : Nat) (st : AIState) : Option (AIState × Bool) :=
  match outerD fuel (purge (passMarked st).knowledge) 0
      (decide (newSafes st.knowledge = ∅ ∧ newMines st.knowledge = ∅)) with
  | none => none
  | some kbch => some ({ passMarked st with knowledge := kbch.1 }, kbch.2)

/-- The `while consistent == False` loop (lines 292–365): repeat passes
until one reports `consistent = True`. -/
def whileLoop : Nat → AIState → Option AIState
  | 0, _ => none
  | fuel + 1, st =>
    match runPass fuel st with
    | none => none
    | some stch => if stch.2 then some stch.1 else whileLoop fuel stch.1

/-- Steps 1–3 of `add_knowledge` (lines 238–282): record the move, mark the
cell safe, build the neighbour sentence, simplify it against the current
`safes`/`mines`, and append it (unconditionally) to the knowledge base. -/
def setupState (st : AIState) (cell : Cell) (count : Int) : AIState :=
  let st1 := { st with moves_made := insert cell st.moves_made }
  let st2 := st1.mark_safe cell
  let ns0 : Sentence := ⟨surroundingCells st.height st.width cell, count⟩
  let ns1 := simplifyNew st2.safes st2.mines ns0
  { st2 with knowledge := st2.knowledge ++ [ns1] }

/-- Source `MinesweeperAI.add_knowledge` (lines 222–365). -/
def addKnowledge (fuel : Nat) (st : AIState) (cell : Cell) (count : Int) :
    Option AIState :=
  whileLoop fuel (setupState st cell count)

/-- Source `MinesweeperAI.make_safe_move` (lines 368–384): build the fresh set
`self.safes - self.moves_made` and pop an arbitrary element of it (the pop
mutates only the fresh set, so the agent is returned unchanged); `None` when
the set is empty.  The arbitrary pop is modelled by the canonical order's
first element. -/
def makeSafeMove (st : AIState) : Option Cell × AIState :=
  ((sortCells (st.safes \ st.moves_made)).head?, st)

/-- Source `MinesweeperAI.make_random_move` (lines 386–410): pop an arbitrary cell
from the grid cells minus `mines ∪ moves_made`. -/
def makeRandomMove (st : AIState) : Option Cell × AIState :=
  let possible := ((List.range st.height).flatMap fun i =>
    (List.range st.width).map fun j => ((i : Int), (j : Int))).toFinset
  ((sortCells (possible \ (st.mines ∪ st.moves_made))).head?, st)

/-- An agent operation, for stating properties of arbitrary call
sequences. -/
inductive AgentOp where
  | mMine (c : Cell)
  | mSafe (c : Cell)
  | addK (c : Cell) (n : Int)

/-- Apply one agent operation (with fuel for `addKnowledge`). -/
def applyOp (fuel : Nat) (st : AIState) : AgentOp → Option AIState
  | .mMine c => some (st.mark_mine c)
  | .mSafe c => some (st.mark_safe c)
  | .addK c n => addKnowledge fuel st c n

/-- Run a sequence of agent operations. -/
def runOps (fuel : Nat) (st : AIState) : List AgentOp → Option AIState
  | [] => some st
  | op :: rest => (applyOp fuel st op).bind fun st1 => runOps fuel st1 rest

end MinesPort

namespace TweetPort

/-! ## The tweet-cleaning stage of `Twitter AI/twitter.py` (lines 13–41)

Text is modelled as `List Char`.  The pipeline's stemming step and the
classifier are not modelled; the claims under proof stop at the cleaned
text before stemming. -/

/-- One character of the class `[\w+]` of the handle pattern `@[\w+]`
(line 29): a word character (letter, digit or underscore) or a literal
plus. -/
def isWordCharPlus (c : Char) : Bool :=
  c.isAlpha || c.isDigit || c = '_' || c = '+'

/-- Python `re.findall(r"@[\w+]", txt)` (line 14): scan left to right for `@`
followed by one class character, collecting the two-character matches
without overlap. -/
def findHandles : List Char → List (Char × Char)
  | [] => []
  | '@' :: c :: rest =>
    if isWordCharPlus c then ('@', c) :: findHandles rest
    else findHandles (c :: rest)
  | _ :: rest => findHandles rest

/-- Remove every (non-overlapping, left-to-right) occurrence of the
two-character string `ab` from the text: this is `re.sub(i, '', txt)` for a
found match `i` (line 16).  The source feeds the matched text back in as a
regex; for the two-character matches `@x` arising here with `x` a word
character, that regex matches exactly the literal two-character string,
which is what this models. -/
def removePair (a b : Char) : List Char → List Char
  | [] => []
  | [c] => [c]
  | c :: d :: rest =>
    if c = a ∧ d = b then removePair a b rest
    else c :: removePair a b (d :: rest)

/-- Source `remove_pattern` (lines 13–18) applied with the fixed pattern
`r"@[\w+]"`: find all matches, then delete each matched string in turn. -/
def remove_pattern (txt : List Char) : List Char :=
  (findHandles txt).foldl (fun acc m => removePair m.1 m.2 acc) txt

/-- A character kept by the `[^a-zA-Z#]` replacement (line 34). -/
def keepChar (c : Char) : Bool :=
  c.isAlpha || c = '#'

/-- Line 34: replace every character outside `a-zA-Z#` with a space. -/
def charFilter (txt : List Char) : List Char :=
  txt.map fun c => if keepChar c then c else ' '

/-- Helper of `splitWs`: accumulate the current token (reversed). -/
def splitWsAux : List Char → List Char → List (List Char)
  | [], acc => if acc.isEmpty then [] else [acc.reverse]
  | c :: rest, acc =>
    if c = ' ' then
      if acc.isEmpty then splitWsAux rest []
      else acc.reverse :: splitWsAux rest []
    else splitWsAux rest (c :: acc)

/-- Python `str.split()` with no separator: split on runs of whitespace,
producing no empty tokens.  (The texts reaching `split` here contain only
ordinary spaces as whitespace.) -/
def splitWs (txt : List Char) : List (List Char) :=
  splitWsAux txt []

/-- Python `' '.join(...)` over token lists. -/
def joinSpace (ws : List (List Char)) : List Char :=
  List.intercalate [' '] ws

/-- Line 39: keep only tokens of length at least 4 and rejoin. -/
def dropShort (txt : List Char) : List Char :=
  joinSpace ((splitWs txt).filter fun w => decide (w.length > 3))

/-- Line 41: keep only tokens not in the stop-word list and rejoin.  The
stop-word list itself is an external resource (`nltk`'s English list), so
it is a parameter. -/
def dropStop (stop : List (List Char)) (txt : List Char) : List Char :=
  joinSpace ((splitWs txt).filter fun w => decide (w ∉ stop))

/-- The cleaning pipeline up to (and excluding) stemming: handle removal
(line 29), character filtering (line 34), short-token removal (line 39),
stop-word removal (line 41). -/
def cleanBeforeStem (stop : List (List Char)) (tweet : List Char) : List Char :=
  dropStop stop (dropShort (charFilter (remove_pattern tweet)))

end TweetPort

namespace MinesPort

/-! ## Characterisation of the set-iterating marking loops

The per-cell marks commute, so folding them over any enumeration of a set
has a closed set-level description.  These lemmas record that description
for the canonical enumeration the embedding uses. -/

theorem erase_sdiff (s : Finset Cell) (c : Cell) (t : Finset Cell) :
    (s.erase c) \ t = s \ insert c t := by
  ext x
  simp only [Finset.mem_sdiff, Finset.mem_erase, Finset.mem_insert]
  tauto

theorem sentence_eta (s : Sentence) : (⟨s.cells, s.count⟩ : Sentence) = s := rfl

theorem foldl_mark_safe_state (l : List Cell) (st : AIState) :
    l.foldl AIState.mark_safe st =
      { st with
        safes := st.safes ∪ l.toFinset
        knowledge := st.knowledge.map fun s => ⟨s.cells \ l.toFinset, s.count⟩ } := by
  induction l generalizing st with
  | nil =>
    cases st with
    | mk h w mo mi sa kb =>
      simp only [List.foldl_nil, List.toFinset_nil, Finset.union_empty, Finset.sdiff_empty]
      simp [sentence_eta]
  | cons c l ih =>
    simp only [List.foldl_cons]
    rw [ih]
    cases st with
    | mk h w mo mi sa kb =>
      simp only [AIState.mark_safe, AIState.mk.injEq, List.toFinset_cons, List.map_map]
      refine ⟨trivial, trivial, trivial, trivial, ?_, ?_⟩
      · rw [Finset.insert_union, Finset.union_insert]
      · apply List.map_congr_left
        intro s _
        simp only [Function.comp_apply, mark_safe_eq, erase_sdiff]

theorem foldl_mark_mine_state (l : List Cell) (st : AIState) :
    l.foldl AIState.mark_mine st =
      { st with
        mines := st.mines ∪ l.toFinset
        knowledge := st.knowledge.map fun s => l.foldl Sentence.mark_mine s } := by
  induction l generalizing st with
  | nil =>
    cases st with
    | mk h w mo mi sa kb =>
      simp only [List.foldl_nil, List.toFinset_nil, Finset.union_empty]
      simp
  | cons c l ih =>
    simp only [List.foldl_cons]
    rw [ih]
    cases st with
    | mk h w mo mi sa kb =>
      simp only [AIState.mark_mine, AIState.mk.injEq, List.toFinset_cons, List.map_map]
      refine ⟨trivial, trivial, trivial, ?_, trivial, ?_⟩
      · rw [Finset.insert_union, Finset.union_insert]
      · apply List.map_congr_left
        intro s _
        simp only [Function.comp_apply]

theorem foldl_sentence_mark_safe (l : List Cell) (s : Sentence) :
    l.foldl Sentence.mark_safe s = ⟨s.cells \ l.toFinset, s.count⟩ := by
  induction l generalizing s with
  | nil => simp [sentence_eta]
  | cons c l ih =>
    simp only [List.foldl_cons, List.toFinset_cons]
    rw [ih, mark_safe_eq]
    simp only [erase_sdiff]

theorem foldl_sentence_mark_mine (l : List Cell) (s : Sentence)
    (hnd : l.Nodup) (hsub : l.toFinset ⊆ s.cells) :
    l.foldl Sentence.mark_mine s = ⟨s.cells \ l.toFinset, s.count - l.length⟩ := by
  induction l generalizing s with
  | nil => simp [sentence_eta]
  | cons c l ih =>
    simp only [List.foldl_cons, List.toFinset_cons]
    have hc : c ∈ s.cells := hsub (by simp)
    have hnd' : l.Nodup := (List.nodup_cons.mp hnd).2
    have hcl : c ∉ l := (List.nodup_cons.mp hnd).1
    have hsub' : l.toFinset ⊆ (s.mark_mine c).cells := by
      rw [mark_mine_eq]
      intro x hx
      have hxs : x ∈ s.cells := hsub (by simp [hx])
      have hxc : x ≠ c := by
        intro h
        exact hcl (by simpa [h] using hx)
      exact Finset.mem_erase.mpr ⟨hxc, hxs⟩
    rw [ih _ hnd' hsub', mark_mine_eq]
    simp only [if_pos hc, erase_sdiff]
    congr 1
    simp only [List.length_cons]
    push_cast
    ring

theorem markSafeAll_spec (st : AIState) (cs : Finset Cell) :
    markSafeAll st cs =
      { st with
        safes := st.safes ∪ cs
        knowledge := st.knowledge.map fun s => ⟨s.cells \ cs, s.count⟩ } := by
  unfold markSafeAll
  rw [foldl_mark_safe_state, sortCells_toFinset]

theorem markMineAll_spec (st : AIState) (cs : Finset Cell) :
    markMineAll st cs =
      { st with
        mines := st.mines ∪ cs
        knowledge := st.knowledge.map fun s => (sortCells cs).foldl Sentence.mark_mine s } := by
  unfold markMineAll
  rw [foldl_mark_mine_state, sortCells_toFinset]

theorem markSafeAll_empty (st : AIState) : markSafeAll st ∅ = st := by
  rw [markSafeAll_spec]
  cases st with
  | mk h w mo mi sa kb => simp [sentence_eta]

theorem markMineAll_empty (st : AIState) : markMineAll st ∅ = st := by
  rw [markMineAll_spec]
  cases st with
  | mk h w mo mi sa kb => simp [sortCells_empty]

theorem simplify_skip (safes mines : Finset Cell) (l : List Cell) (s : Sentence)
    (h : ∀ c ∈ l, c ∉ safes ∧ c ∉ mines) :
    l.foldl (simpStep safes mines) s = s := by
  induction l generalizing s with
  | nil => rfl
  | cons c l ih =>
    simp only [List.foldl_cons]
    have hc := h c (by simp)
    rw [show simpStep safes mines s c = s by simp [simpStep, hc.1, hc.2]]
    exact ih _ fun x hx => h x (by simp [hx])

theorem mem_surroundingCells {height width : Nat} {cell c : Cell}
    (h : c ∈ surroundingCells height width cell) : c ≠ cell := by
  unfold surroundingCells at h
  rw [List.mem_toFinset, List.mem_filter] at h
  exact (of_decide_eq_true h.2).1

theorem simplifyNew_skip (safes mines : Finset Cell) (s : Sentence)
    (h : ∀ x ∈ s.cells, x ∉ safes ∧ x ∉ mines) :
    simplifyNew safes mines s = s := by
  unfold simplifyNew
  exact simplify_skip _ _ _ _ fun c hc => h c (mem_sortCells.mp hc)

/-! ## Properties of the subset-subtraction loops -/

theorem get?_lt_length {α : Type} {l : List α} {n : Nat} {a : α}
    (h : l.get? n = some a) : n < l.length := by
  by_contra h'
  rw [List.get?_eq_none.mpr (by omega)] at h
  exact absurd h (by simp)

theorem get?_some_of_lt {α : Type} {l : List α} {n : Nat}
    (h : n < l.length) : ∃ a, l.get? n = some a := by
  cases hg : l.get? n with
  | none => exact absurd (List.get?_eq_none.mp hg) (by omega)
  | some a => exact ⟨a, rfl⟩

theorem prefix_get?_eq {α : Type} {l l2 : List α} (h : l <+: l2) {n : Nat}
    (hn : n < l.length) : l2.get? n = l.get? n := by
  obtain ⟨t, rfl⟩ := h
  exact List.get?_append hn

theorem innerD_succ (fuel : Nat) (kb : List Sentence) (s : Sentence) (j : Nat) (ch : Bool) :
    innerD (fuel + 1) kb s j ch =
      match kb.get? j with
      | none => some (kb, ch)
      | some s1 =>
        if s = s1 then innerD fuel kb s (j + 1) ch
        else if s.cells ⊆ s1.cells then
          if s1.sub s ∈ kb then innerD fuel kb s (j + 1) ch
          else innerD fuel (kb ++ [s1.sub s]) s (j + 1) false
        else innerD fuel kb s (j + 1) ch := rfl

theorem innerD_zero (kb : List Sentence) (s : Sentence) (j : Nat) (ch : Bool) :
    innerD 0 kb s j ch = none := rfl

theorem innerD_mono {fuel : Nat} {kb : List Sentence} {s : Sentence} {j : Nat}
    {ch : Bool} {r : List Sentence × Bool}
    (h : innerD fuel kb s j ch = some r) : innerD (fuel + 1) kb s j ch = some r := by
  induction fuel generalizing kb j ch with
  | zero => simp [innerD_zero] at h
  | succ n ih =>
    rw [innerD_succ] at h
    rw [innerD_succ]
    cases hj : kb.get? j with
    | none => rw [hj] at h; exact h
    | some s1 =>
      rw [hj] at h
      simp only at h ⊢
      by_cases h1 : s = s1
      · rw [if_pos h1] at h ⊢; exact ih h
      · rw [if_neg h1] at h ⊢
        by_cases h2 : s.cells ⊆ s1.cells
        · rw [if_pos h2] at h ⊢
          by_cases h3 : s1.sub s ∈ kb
          · rw [if_pos h3] at h ⊢; exact ih h
          · rw [if_neg h3] at h ⊢; exact ih h
        · rw [if_neg h2] at h ⊢; exact ih h

theorem innerD_mono_le {f g : Nat} {kb : List Sentence} {s : Sentence} {j : Nat}
    {ch : Bool} {r : List Sentence × Bool} (hfg : f ≤ g)
    (h : innerD f kb s j ch = some r) : innerD g kb s j ch = some r := by
  induction g with
  | zero =>
    have : f = 0 := by omega
    subst this
    exact h
  | succ n ih =>
    rcases Nat.lt_or_ge f (n + 1) with hlt | hge
    · exact innerD_mono (ih (by omega))
    · have : f = n + 1 := by omega
      subst this
      exact h

theorem innerD_det {f g : Nat} {kb : List Sentence} {s : Sentence} {j : Nat}
    {ch : Bool} {r r2 : List Sentence × Bool}
    (h : innerD f kb s j ch = some r) (h2 : innerD g kb s j ch = some r2) : r = r2 := by
  rcases Nat.le_total f g with hle | hle
  · rw [innerD_mono_le hle h] at h2
    exact Option.some.inj h2
  · rw [innerD_mono_le hle h2] at h
    exact (Option.some.inj h).symm

theorem innerD_extends {fuel : Nat} {kb : List Sentence} {s : Sentence} {j : Nat}
    {ch : Bool} {r : List Sentence × Bool}
    (h : innerD fuel kb s j ch = some r) : kb <+: r.1 := by
  induction fuel generalizing kb j ch with
  | zero => simp [innerD_zero] at h
  | succ n ih =>
    rw [innerD_succ] at h
    cases hj : kb.get? j with
    | none =>
      rw [hj] at h
      cases h
      exact List.prefix_refl _
    | some s1 =>
      rw [hj] at h
      simp only at h
      by_cases h1 : s = s1
      · rw [if_pos h1] at h; exact ih h
      · rw [if_neg h1] at h
        by_cases h2 : s.cells ⊆ s1.cells
        · rw [if_pos h2] at h
          by_cases h3 : s1.sub s ∈ kb
          · rw [if_pos h3] at h; exact ih h
          · rw [if_neg h3] at h
            exact (List.prefix_append kb [s1.sub s]).trans (ih h)
        · rw [if_neg h2] at h; exact ih h

theorem innerD_pairs {fuel : Nat} {kb : List Sentence} {s : Sentence} {j : Nat}
    {ch : Bool} {r : List Sentence × Bool}
    (h : innerD fuel kb s j ch = some r) :
    ∀ {n : Nat} {b : Sentence}, kb.get? n = some b → j ≤ n → s ≠ b →
      s.cells ⊆ b.cells → b.sub s ∈ r.1 := by
  induction fuel generalizing kb j ch with
  | zero => simp [innerD_zero] at h
  | succ f ih =>
    intro n b hn hjn hne hsub
    rw [innerD_succ] at h
    have hjlen : j < kb.length := by
      have := get?_lt_length hn
      omega
    obtain ⟨s1, hj⟩ := get?_some_of_lt hjlen
    rw [hj] at h
    simp only at h
    rcases Nat.eq_or_lt_of_le hjn with heq | hlt
    · subst heq
      rw [hj] at hn
      cases hn
      rw [if_neg (by exact hne), if_pos hsub] at h
      by_cases h3 : b.sub s ∈ kb
      · rw [if_pos h3] at h
        exact (innerD_extends h).subset h3
      · rw [if_neg h3] at h
        exact (innerD_extends h).subset (by simp)
    · by_cases h1 : s = s1
      · rw [if_pos h1] at h
        exact ih h hn (by omega) hne hsub
      · rw [if_neg h1] at h
        by_cases h2 : s.cells ⊆ s1.cells
        · rw [if_pos h2] at h
          by_cases h3 : s1.sub s ∈ kb
          · rw [if_pos h3] at h
            exact ih h hn (by omega) hne hsub
          · rw [if_neg h3] at h
            have hn' : (kb ++ [s1.sub s]).get? n = some b := by
              rw [List.get?_append (get?_lt_length hn)]
              exact hn
            exact ih h hn' (by omega) hne hsub
        · rw [if_neg h2] at h
          exact ih h hn (by omega) hne hsub

theorem innerD_nodup {fuel : Nat} {kb : List Sentence} {s : Sentence} {j : Nat}
    {ch : Bool} {r : List Sentence × Bool}
    (h : innerD fuel kb s j ch = some r) (hnd : kb.Nodup) : r.1.Nodup := by
  induction fuel generalizing kb j ch with
  | zero => simp [innerD_zero] at h
  | succ f ih =>
    rw [innerD_succ] at h
    cases hj : kb.get? j with
    | none =>
      rw [hj] at h
      cases h
      exact hnd
    | some s1 =>
      rw [hj] at h
      simp only at h
      by_cases h1 : s = s1
      · rw [if_pos h1] at h; exact ih h hnd
      · rw [if_neg h1] at h
        by_cases h2 : s.cells ⊆ s1.cells
        · rw [if_pos h2] at h
          by_cases h3 : s1.sub s ∈ kb
          · rw [if_pos h3] at h; exact ih h hnd
          · rw [if_neg h3] at h
            refine ih h ?_
            rw [List.nodup_append]
            exact ⟨hnd, List.nodup_singleton _, by
              intro a ha hb
              rw [List.mem_singleton] at hb
              subst hb
              exact h3 ha⟩
        · rw [if_neg h2] at h; exact ih h hnd

theorem outerD_succ (fuel : Nat) (kb : List Sentence) (i : Nat) (ch : Bool) :
    outerD (fuel + 1) kb i ch =
      match kb.get? i with
      | none => some (kb, ch)
      | some s =>
        match innerD (fuel + 1) kb s 0 ch with
        | none => none
        | some kbch => outerD fuel kbch.1 (i + 1) kbch.2 := rfl

theorem outerD_zero (kb : List Sentence) (i : Nat) (ch : Bool) :
    outerD 0 kb i ch = none := rfl

theorem outerD_spec {fuel : Nat} {kb : List Sentence} {i : Nat} {ch : Bool}
    {r : List Sentence × Bool} (h : outerD fuel kb i ch = some r) :
    kb <+: r.1 ∧
      ∀ {m n : Nat} {a b : Sentence}, kb.get? m = some a → kb.get? n = some b →
        i ≤ m → a ≠ b → a.cells ⊆ b.cells → b.sub a ∈ r.1 := by
  induction fuel generalizing kb i ch with
  | zero => simp [outerD_zero] at h
  | succ f ih =>
    rw [outerD_succ] at h
    cases hi : kb.get? i with
    | none =>
      rw [hi] at h
      cases h
      refine ⟨List.prefix_refl _, ?_⟩
      intro m n a b hm hn him hne hsub
      have h1 := get?_lt_length hm
      have h2 := List.get?_eq_none.mp hi
      omega
    | some s =>
      rw [hi] at h
      simp only at h
      cases hinner : innerD (f + 1) kb s 0 ch with
      | none => rw [hinner] at h; exact absurd h (by simp)
      | some kbch =>
        rw [hinner] at h
        obtain ⟨hpre, hpairs⟩ := ih h
        have hpre0 : kb <+: kbch.1 := innerD_extends hinner
        refine ⟨hpre0.trans hpre, ?_⟩
        intro m n a b hm hn him hne hsub
        rcases Nat.eq_or_lt_of_le him with heq | hlt
        · subst heq
          rw [hi] at hm
          cases hm
          exact hpre.subset (innerD_pairs hinner hn (by omega) hne hsub)
        · have hm' : kbch.1.get? m = some a := by
            rw [prefix_get?_eq hpre0 (get?_lt_length hm)]
            exact hm
          have hn' : kbch.1.get? n = some b := by
            rw [prefix_get?_eq hpre0 (get?_lt_length hn)]
            exact hn
          exact hpairs hm' hn' (by omega) hne hsub

theorem outerD_nodup {fuel : Nat} {kb : List Sentence} {i : Nat} {ch : Bool}
    {r : List Sentence × Bool} (h : outerD fuel kb i ch = some r)
    (hnd : kb.Nodup) : r.1.Nodup := by
  induction fuel generalizing kb i ch with
  | zero => simp [outerD_zero] at h
  | succ f ih =>
    rw [outerD_succ] at h
    cases hi : kb.get? i with
    | none =>
      rw [hi] at h
      cases h
      exact hnd
    | some s =>
      rw [hi] at h
      simp only at h
      cases hinner : innerD (f + 1) kb s 0 ch with
      | none => rw [hinner] at h; exact absurd h (by simp)
      | some kbch =>
        rw [hinner] at h
        exact ih h (innerD_nodup hinner hnd)

/-! ## Divergence of the subtraction loop

Once a sentence `⟨∅, 1⟩` is the fixed outer sentence, each inner step over
any sentence `t` can append `⟨t.cells, t.count - 1⟩`; an empty-cells
sentence of minimal count keeps regenerating a fresh, smaller one, so the
inner iterator never catches up with the list's end. -/

/-- The divergence invariant: some position at or after the inner index `j`
holds an empty-cells sentence with nonpositive count `c0`, minimal among the
empty-cells sentences of the list. -/
def DivInv (kb : List Sentence) (j : Nat) : Prop :=
  ∃ m c0, kb.get? m = some ⟨∅, c0⟩ ∧ j ≤ m ∧ c0 ≤ 0 ∧
    ∀ c : Int, c < c0 → (⟨∅, c⟩ : Sentence) ∉ kb

theorem innerD_div {fuel : Nat} {kb : List Sentence} {j : Nat} {ch : Bool}
    (hinv : DivInv kb j) : innerD fuel kb ⟨∅, 1⟩ j ch = none := by
  induction fuel generalizing kb j ch with
  | zero => rfl
  | succ f ih =>
    obtain ⟨m, c0, hm, hjm, hc0, hmin⟩ := hinv
    have hmlen : m < kb.length := get?_lt_length hm
    have hjlen : j < kb.length := by omega
    obtain ⟨s1, hj⟩ := get?_some_of_lt hjlen
    rw [innerD_succ, hj]
    simp only
    have hjm' : j = m → s1 = ⟨∅, c0⟩ := by
      intro h
      subst h
      rw [hj] at hm
      exact Option.some.inj hm
    by_cases h1 : (⟨∅, 1⟩ : Sentence) = s1
    · rw [if_pos h1]
      apply ih
      have hne : j ≠ m := by
        intro h
        have := hjm' h
        rw [← h1] at this
        have : (1 : Int) = c0 := congrArg Sentence.count this
        omega
      exact ⟨m, c0, hm, by omega, hc0, hmin⟩
    · rw [if_neg h1, if_pos (by simp)]
      have hsub : s1.sub ⟨∅, 1⟩ = ⟨s1.cells, s1.count - 1⟩ := by
        unfold Sentence.sub
        simp
      by_cases h3 : s1.sub ⟨∅, 1⟩ ∈ kb
      · rw [if_pos h3]
        apply ih
        have hne : j ≠ m := by
          intro h
          have hs1 := hjm' h
          rw [hsub, hs1] at h3
          exact hmin (c0 - 1) (by omega) h3
        exact ⟨m, c0, hm, by omega, hc0, hmin⟩
      · rw [if_neg h3]
        apply ih
        rw [hsub]
        by_cases hc : s1.cells = ∅
        · have hs1mem : s1 ∈ kb := List.get?_mem hj
          have hd : c0 ≤ s1.count := by
            by_contra hlt
            apply hmin s1.count (by omega)
            have : s1 = ⟨∅, s1.count⟩ := by
              cases s1
              simp only at hc
              rw [hc]
            exact this ▸ hs1mem
          by_cases hdc : s1.count = c0
          · refine ⟨kb.length, c0 - 1, ?_, by omega, by omega, ?_⟩
            · rw [List.get?_concat_length, hc, hdc]
            · intro c hcc
              rw [List.mem_append]
              rintro (hmem | hmem)
              · exact hmin c (by omega) hmem
              · rw [List.mem_singleton] at hmem
                have : c = s1.count - 1 := (Sentence.mk.injEq _ _ _ _ ▸ hmem).2
                omega
          · have hne : j ≠ m := by
              intro h
              have := congrArg Sentence.count (hjm' h)
              simp only at this
              omega
            refine ⟨m, c0, ?_, by omega, hc0, ?_⟩
            · rw [List.get?_append hmlen]
              exact hm
            · intro c hcc
              rw [List.mem_append]
              rintro (hmem | hmem)
              · exact hmin c (by omega) hmem
              · rw [List.mem_singleton] at hmem
                have : c = s1.count - 1 := (Sentence.mk.injEq _ _ _ _ ▸ hmem).2
                omega
        · have hne : j ≠ m := by
            intro h
            have := congrArg Sentence.cells (hjm' h)
            simp only at this
            exact hc this
          refine ⟨m, c0, ?_, by omega, hc0, ?_⟩
          · rw [List.get?_append hmlen]
            exact hm
          · intro c hcc
            rw [List.mem_append]
            rintro (hmem | hmem)
            · exact hmin c (by omega) hmem
            · rw [List.mem_singleton] at hmem
              have : (∅ : Finset Cell) = s1.cells := congrArg Sentence.cells hmem
              exact hc this.symm

/-! ## A concrete diverging `add_knowledge` call

On a 2×2 agent, `add_knowledge((0,0), 1)` followed by the inconsistent
revisit `add_knowledge((0,0), 2)` puts `⟨N, 1⟩` and `⟨N, 2⟩` (same cells,
different counts) into the knowledge base; the subtraction stage then
derives `⟨∅, 1⟩` and `⟨∅, -1⟩` and, with `⟨∅, 1⟩` as outer sentence, keeps
appending fresh sentences forever. -/

/-- The neighbour set of `(0,0)` on a 2×2 grid. -/
def nbSet : Finset Cell := {(0, 1), (1, 0), (1, 1)}

def sN1 : Sentence := ⟨nbSet, 1⟩
def sN2 : Sentence := ⟨nbSet, 2⟩
def sE1 : Sentence := ⟨∅, 1⟩
def sE2 : Sentence := ⟨∅, -1⟩
def kbB0 : List Sentence := [sN1, sN2]
def kbB3 : List Sentence := [sN1, sN2, sE1]
def kbB4 : List Sentence := [sN1, sN2, sE1, sE2]

/-- The agent state produced by `addKnowledge((0,0), 1)` on a fresh 2×2
agent. -/
def badStart : AIState := ⟨2, 2, {(0, 0)}, ∅, {(0, 0)}, [sN1]⟩

/-- The state entering the fixed-point loop during the second
(inconsistent) call `addKnowledge((0,0), 2)`. -/
def badSt3 : AIState := ⟨2, 2, {(0, 0)}, ∅, {(0, 0)}, [sN1, sN2]⟩

theorem outerD_none_kbB4 : ∀ (f : Nat) (b : Bool), outerD f kbB4 2 b = none := by
  intro f b
  cases f with
  | zero => rfl
  | succ f =>
    rw [outerD_succ]
    rw [show kbB4.get? 2 = some sE1 from rfl]
    simp only
    have hdiv : innerD (f + 1) kbB4 sE1 0 b = none := by
      apply innerD_div
      refine ⟨3, -1, rfl, by omega, by omega, ?_⟩
      intro c hc hmem
      rcases List.mem_cons.mp hmem with h | hmem
      · have h2 : (∅ : Finset Cell) = nbSet := congrArg Sentence.cells h
        exact absurd h2 (by decide)
      rcases List.mem_cons.mp hmem with h | hmem
      · have h2 : (∅ : Finset Cell) = nbSet := congrArg Sentence.cells h
        exact absurd h2 (by decide)
      rcases List.mem_cons.mp hmem with h | hmem
      · have : c = 1 := congrArg Sentence.count h
        omega
      rcases List.mem_cons.mp hmem with h | hmem
      · have : c = -1 := congrArg Sentence.count h
        omega
      · exact absurd hmem (by simp)
    rw [hdiv]

theorem outerD_none_kbB3 : ∀ (f : Nat) (b : Bool), outerD f kbB3 1 b = none := by
  intro f b
  cases f with
  | zero => rfl
  | succ f =>
    rw [outerD_succ]
    rw [show kbB3.get? 1 = some sN2 from rfl]
    simp only
    cases hinner : innerD (f + 1) kbB3 sN2 0 b with
    | none => rfl
    | some r =>
      have hconc : innerD 7 kbB3 sN2 0 b = some (kbB4, false) := by
        cases b <;> decide
      rw [innerD_det hinner hconc]
      exact outerD_none_kbB4 f false

theorem outerD_none_kbB0 : ∀ (f : Nat) (b : Bool), outerD f kbB0 0 b = none := by
  intro f b
  cases f with
  | zero => rfl
  | succ f =>
    rw [outerD_succ]
    rw [show kbB0.get? 0 = some sN1 from rfl]
    simp only
    cases hinner : innerD (f + 1) kbB0 sN1 0 b with
    | none => rfl
    | some r =>
      have hconc : innerD 5 kbB0 sN1 0 b = some (kbB3, false) := by
        cases b <;> decide
      rw [innerD_det hinner hconc]
      exact outerD_none_kbB3 f false

theorem runPass_badSt3 (f : Nat) : runPass f badSt3 = none := by
  unfold runPass
  rw [show purge (passMarked badSt3).knowledge = kbB0 from by decide]
  rw [show (decide (newSafes badSt3.knowledge = ∅ ∧ newMines badSt3.knowledge = ∅)) = true
    from by decide]
  rw [outerD_none_kbB0 f true]

theorem whileLoop_badSt3 (f : Nat) : whileLoop f badSt3 = none := by
  cases f with
  | zero => rfl
  | succ f =>
    show (match runPass f badSt3 with
      | none => none
      | some stch => if stch.2 then some stch.1 else whileLoop f stch.1) = none
    rw [runPass_badSt3 f]

theorem addKnowledge_badStart_diverges (fuel : Nat) :
    addKnowledge fuel badStart (0, 0) 2 = none := by
  unfold addKnowledge
  rw [show setupState badStart (0, 0) 2 = badSt3 from by decide]
  exact whileLoop_badSt3 fuel

/-! ## Monotone growth of the `safes` and `mines` sets

No agent operation ever removes a cell from `safes` or from `mines`: the
marking primitives insert, `add_knowledge`'s passes only add the gathered
`new_safe`/`new_mine` unions, and the subtraction stage touches only the
knowledge base. -/

theorem passMarked_sets (st : AIState) :
    (passMarked st).safes = st.safes ∪ newSafes st.knowledge ∧
      (passMarked st).mines = st.mines ∪ newMines st.knowledge := by
  unfold passMarked
  rw [markMineAll_spec, markSafeAll_spec]
  exact ⟨rfl, rfl⟩

theorem runPass_mono {fuel : Nat} {st : AIState} {r : AIState × Bool}
    (h : runPass fuel st = some r) :
    st.safes ⊆ r.1.safes ∧ st.mines ⊆ r.1.mines := by
  unfold runPass at h
  cases houter : outerD fuel (purge (passMarked st).knowledge) 0
      (decide (newSafes st.knowledge = ∅ ∧ newMines st.knowledge = ∅)) with
  | none => rw [houter] at h; exact absurd h (by simp)
  | some kbch =>
    rw [houter] at h
    simp only at h
    cases h
    obtain ⟨hs, hm⟩ := passMarked_sets st
    constructor
    · show st.safes ⊆ (passMarked st).safes
      rw [hs]
      exact Finset.subset_union_left
    · show st.mines ⊆ (passMarked st).mines
      rw [hm]
      exact Finset.subset_union_left

theorem whileLoop_mono {fuel : Nat} {st st' : AIState}
    (h : whileLoop fuel st = some st') :
    st.safes ⊆ st'.safes ∧ st.mines ⊆ st'.mines := by
  induction fuel generalizing st with
  | zero => exact absurd h (by simp [whileLoop])
  | succ f ih =>
    rw [show whileLoop (f + 1) st =
      (match runPass f st with
        | none => none
        | some stch => if stch.2 then some stch.1 else whileLoop f stch.1) from rfl] at h
    cases hp : runPass f st with
    | none => rw [hp] at h; exact absurd h (by simp)
    | some stch =>
      rw [hp] at h
      simp only at h
      obtain ⟨hs, hm⟩ := runPass_mono hp
      by_cases hb : stch.2
      · rw [if_pos hb] at h
        cases h
        exact ⟨hs, hm⟩
      · rw [if_neg hb] at h
        obtain ⟨hs2, hm2⟩ := ih h
        exact ⟨hs.trans hs2, hm.trans hm2⟩

theorem setupState_mono (st : AIState) (cell : Cell) (count : Int) :
    st.safes ⊆ (setupState st cell count).safes ∧
      st.mines ⊆ (setupState st cell count).mines := by
  unfold setupState AIState.mark_safe
  constructor
  · exact Finset.subset_insert _ _
  · exact Finset.Subset.refl _

theorem addKnowledge_mono {fuel : Nat} {st st' : AIState} {cell : Cell} {count : Int}
    (h : addKnowledge fuel st cell count = some st') :
    st.safes ⊆ st'.safes ∧ st.mines ⊆ st'.mines := by
  unfold addKnowledge at h
  obtain ⟨hs1, hm1⟩ := setupState_mono st cell count
  obtain ⟨hs2, hm2⟩ := whileLoop_mono h
  exact ⟨hs1.trans hs2, hm1.trans hm2⟩

theorem applyOp_mono {fuel : Nat} {st st' : AIState} {op : AgentOp}
    (h : applyOp fuel st op = some st') :
    st.safes ⊆ st'.safes ∧ st.mines ⊆ st'.mines := by
  cases op with
  | mMine c =>
    cases h
    exact ⟨Finset.Subset.refl _, Finset.subset_insert _ _⟩
  | mSafe c =>
    cases h
    exact ⟨Finset.subset_insert _ _, Finset.Subset.refl _⟩
  | addK c n => exact addKnowledge_mono h

theorem runOps_mono {fuel : Nat} {ops : List AgentOp} {st st' : AIState}
    (h : runOps fuel st ops = some st') :
    st.safes ⊆ st'.safes ∧ st.mines ⊆ st'.mines := by
  induction ops generalizing st with
  | nil =>
    cases h
    exact ⟨Finset.Subset.refl _, Finset.Subset.refl _⟩
  | cons op rest ih =>
    unfold runOps at h
    cases hop : applyOp fuel st op with
    | none => rw [hop] at h; exact absurd h (by simp)
    | some st1 =>
      rw [hop] at h
      obtain ⟨hs1, hm1⟩ := applyOp_mono hop
      obtain ⟨hs2, hm2⟩ := ih h
      exact ⟨hs1.trans hs2, hm1.trans hm2⟩

/-! ## Termination of a first `add_knowledge` call on a fresh agent

A fresh agent's knowledge base holds a single sentence after step 3, and a
single sentence can never feed the subtraction rule (the only pair is
skipped as equal); either its cells are all marked in the first pass and
the sentence collapses and is purged, or nothing is derivable and the first
pass already reports convergence. -/

theorem purge_single_empty (n : Int) : purge [⟨∅, n⟩] = [] := by
  unfold purge sentenceEqInt
  simp

theorem purge_single_keep (S : Finset Cell) (n : Int) (hS : S ≠ ∅) :
    purge [⟨S, n⟩] = [⟨S, n⟩] := by
  unfold purge sentenceEqInt
  simp [Finset.card_eq_zero, hS]

theorem outerD_done (f : Nat) (kb : List Sentence) (i : Nat) (b : Bool)
    (h : kb.get? i = none) : outerD (f + 1) kb i b = some (kb, b) := by
  rw [outerD_succ, h]

theorem outerD_nil (f : Nat) (i : Nat) (b : Bool) :
    outerD (f + 1) ([] : List Sentence) i b = some ([], b) :=
  outerD_done f [] i b rfl

theorem outerD_single (f : Nat) (s : Sentence) (b : Bool) :
    outerD (f + 2) [s] 0 b = some ([s], b) := by
  rw [outerD_succ, show [s].get? 0 = some s from rfl]
  simp only
  have hin : innerD (f + 2) [s] s 0 b = some ([s], b) := by
    rw [innerD_succ, show [s].get? 0 = some s from rfl]
    simp only
    rw [if_pos trivial]
    rw [innerD_succ, show [s].get? 1 = none from rfl]
  rw [hin]
  exact outerD_done f [s] 1 b rfl

theorem runPass_eq (fuel : Nat) (st : AIState) :
    runPass fuel st =
      (outerD fuel (purge (passMarked st).knowledge) 0
        (decide (newSafes st.knowledge = ∅ ∧ newMines st.knowledge = ∅))).map
        fun kbch => ({ passMarked st with knowledge := kbch.1 }, kbch.2) := by
  unfold runPass
  cases outerD fuel (purge (passMarked st).knowledge) 0
      (decide (newSafes st.knowledge = ∅ ∧ newMines st.knowledge = ∅)) <;> rfl

theorem newSafes_single (s : Sentence) : newSafes [s] = s.known_safes := by
  unfold newSafes
  simp

theorem newMines_single (s : Sentence) : newMines [s] = s.known_mines := by
  unfold newMines
  simp

theorem runPass_kb_nil (f : Nat) (st : AIState) (h : st.knowledge = []) :
    runPass (f + 1) st = some (st, true) := by
  have hpm : passMarked st = st := by
    unfold passMarked
    rw [h, show newSafes [] = ∅ from rfl, show newMines [] = ∅ from rfl,
      markSafeAll_empty, markMineAll_empty]
  have e1 : purge (passMarked st).knowledge = [] := by
    rw [hpm, h]
    rfl
  have hcon : (decide (newSafes st.knowledge = ∅ ∧ newMines st.knowledge = ∅)) = true := by
    rw [h]
    decide
  rw [runPass_eq, e1, hcon,
    show outerD (f + 1) ([] : List Sentence) 0 true = some ([], true) from outerD_nil f 0 true,
    hpm]
  cases st with
  | mk a b c d e kb =>
    simp only at h
    subst h
    rfl

theorem whileLoop_isSome_of_runPass {f : Nat} {st st' : AIState} {b : Bool}
    (h : runPass f st = some (st', b))
    (hb : b = false → (whileLoop f st').isSome = true) :
    (whileLoop (f + 1) st).isSome = true := by
  rw [show whileLoop (f + 1) st =
    (match runPass f st with
      | none => none
      | some stch => if stch.2 then some stch.1 else whileLoop f stch.1) from rfl]
  rw [h]
  simp only
  cases b with
  | true => rfl
  | false => exact hb rfl

theorem whileLoop_isSome_of_nil (f : Nat) (st : AIState) (h : st.knowledge = []) :
    (whileLoop (f + 2) st).isSome = true := by
  apply whileLoop_isSome_of_runPass (runPass_kb_nil (f := f) st h)
  intro hb
  cases hb

theorem whileLoop_single_isSome (st : AIState) (S : Finset Cell) (n : Int)
    (hkb : st.knowledge = [⟨S, n⟩]) : (whileLoop 10 st).isSome = true := by
  by_cases hn : n = 0
  · subst hn
    by_cases hS : S = ∅
    · subst hS
      have hns : newSafes st.knowledge = (⟨(∅ : Finset Cell), (0 : Int)⟩ : Sentence).known_safes := by
        rw [hkb]; exact newSafes_single _
      have hnm : newMines st.knowledge = (⟨(∅ : Finset Cell), (0 : Int)⟩ : Sentence).known_mines := by
        rw [hkb]; exact newMines_single _
      have hpm : passMarked st = st := by
        unfold passMarked
        rw [hns, hnm]
        rw [show (⟨(∅ : Finset Cell), (0 : Int)⟩ : Sentence).known_safes = ∅ from rfl]
        rw [show (⟨(∅ : Finset Cell), (0 : Int)⟩ : Sentence).known_mines = ∅ from rfl]
        rw [markSafeAll_empty, markMineAll_empty]
      have e1 : purge (passMarked st).knowledge = [] := by
        rw [hpm, hkb]; exact purge_single_empty 0
      have hcon : (decide (newSafes st.knowledge = ∅ ∧ newMines st.knowledge = ∅)) = true := by
        rw [hns, hnm]; decide
      have h1 : runPass 9 st = some ({st with knowledge := []}, true) := by
        rw [runPass_eq, e1, hcon,
          show outerD 9 ([] : List Sentence) 0 true = some ([], true) from outerD_nil 8 0 true,
          hpm]
        rfl
      exact whileLoop_isSome_of_runPass h1 fun hb => by cases hb
    · have hns : newSafes st.knowledge = (⟨S, (0 : Int)⟩ : Sentence).known_safes := by
        rw [hkb]; exact newSafes_single _
      have hnm : newMines st.knowledge = (⟨S, (0 : Int)⟩ : Sentence).known_mines := by
        rw [hkb]; exact newMines_single _
      have hks : (⟨S, (0 : Int)⟩ : Sentence).known_safes = S := by
        unfold Sentence.known_safes
        simp
      have hkm : (⟨S, (0 : Int)⟩ : Sentence).known_mines = ∅ := by
        unfold Sentence.known_mines
        rw [if_neg]
        intro hc
        apply hS
        have hc2 : (S.card : Int) = 0 := hc
        rw [Nat.cast_eq_zero] at hc2
        rwa [Finset.card_eq_zero] at hc2
      have hpm : passMarked st =
          { st with safes := st.safes ∪ S, knowledge := [⟨∅, (0 : Int)⟩] } := by
        unfold passMarked
        rw [hns, hnm, hks, hkm, markMineAll_empty, markSafeAll_spec, hkb]
        simp [Finset.sdiff_self]
      have e1 : purge (passMarked st).knowledge = [] := by
        rw [hpm]; exact purge_single_empty 0
      have hcon : (decide (newSafes st.knowledge = ∅ ∧ newMines st.knowledge = ∅)) = false := by
        rw [hns, hnm, hks, hkm]
        exact decide_eq_false fun hand => hS hand.1
      have h1 : runPass 9 st =
          some ({ st with safes := st.safes ∪ S, knowledge := [] }, false) := by
        rw [runPass_eq, e1, hcon,
          show outerD 9 ([] : List Sentence) 0 false = some ([], false) from outerD_nil 8 0 false,
          hpm]
        rfl
      apply whileLoop_isSome_of_runPass h1
      intro _
      exact whileLoop_isSome_of_nil 7 _ rfl
  · have hns : newSafes st.knowledge = (⟨S, n⟩ : Sentence).known_safes := by
      rw [hkb]; exact newSafes_single _
    have hnm : newMines st.knowledge = (⟨S, n⟩ : Sentence).known_mines := by
      rw [hkb]; exact newMines_single _
    have hks : (⟨S, n⟩ : Sentence).known_safes = ∅ := by
      unfold Sentence.known_safes
      exact if_neg hn
    by_cases hcard : (S.card : Int) = n
    · have hkm : (⟨S, n⟩ : Sentence).known_mines = S := by
        unfold Sentence.known_mines
        exact if_pos hcard
      have hSne : S ≠ ∅ := by
        intro h
        subst h
        simp only [Finset.card_empty, Nat.cast_zero] at hcard
        exact hn hcard.symm
      have hpm : passMarked st =
          { st with mines := st.mines ∪ S, knowledge := [⟨∅, (0 : Int)⟩] } := by
        unfold passMarked
        rw [hns, hnm, hks, hkm, markSafeAll_empty, markMineAll_spec, hkb]
        simp only [List.map_cons, List.map_nil]
        rw [foldl_sentence_mark_mine _ _ (sortCells_nodup S)
          (by rw [sortCells_toFinset])]
        rw [sortCells_toFinset, sortCells_length]
        have hz : n - (S.card : Int) = 0 := by omega
        rw [hz]
        simp [Finset.sdiff_self]
      have e1 : purge (passMarked st).knowledge = [] := by
        rw [hpm]; exact purge_single_empty 0
      have hcon : (decide (newSafes st.knowledge = ∅ ∧ newMines st.knowledge = ∅)) = false := by
        rw [hns, hnm, hks, hkm]
        exact decide_eq_false fun hand => hSne hand.2
      have h1 : runPass 9 st =
          some ({ st with mines := st.mines ∪ S, knowledge := [] }, false) := by
        rw [runPass_eq, e1, hcon,
          show outerD 9 ([] : List Sentence) 0 false = some ([], false) from outerD_nil 8 0 false,
          hpm]
        rfl
      apply whileLoop_isSome_of_runPass h1
      intro _
      exact whileLoop_isSome_of_nil 7 _ rfl
    · have hkm : (⟨S, n⟩ : Sentence).known_mines = ∅ := by
        unfold Sentence.known_mines
        exact if_neg hcard
      have hpm : passMarked st = st := by
        unfold passMarked
        rw [hns, hnm, hks, hkm, markSafeAll_empty, markMineAll_empty]
      have hcon : (decide (newSafes st.knowledge = ∅ ∧ newMines st.knowledge = ∅)) = true := by
        rw [hns, hnm, hks, hkm]
        decide
      by_cases hS : S = ∅
      · have e1 : purge (passMarked st).knowledge = [] := by
          rw [hpm, hkb, hS]; exact purge_single_empty n
        have h1 : runPass 9 st = some ({ st with knowledge := [] }, true) := by
          rw [runPass_eq, e1, hcon,
            show outerD 9 ([] : List Sentence) 0 true = some ([], true) from outerD_nil 8 0 true,
            hpm]
          rfl
        exact whileLoop_isSome_of_runPass h1 fun hb => by cases hb
      · have e1 : purge (passMarked st).knowledge = [⟨S, n⟩] := by
          rw [hpm, hkb]; exact purge_single_keep S n hS
        have h1 : runPass 9 st = some ({ st with knowledge := [⟨S, n⟩] }, true) := by
          rw [runPass_eq, e1, hcon,
            show outerD 9 [(⟨S, n⟩ : Sentence)] 0 true = some ([⟨S, n⟩], true) from
              outerD_single 7 _ true,
            hpm]
          rfl
        exact whileLoop_isSome_of_runPass h1 fun hb => by cases hb

theorem addKnowledge_fresh_isSome (hh ww : Nat) (cell : Cell) (n : Int) :
    (addKnowledge 10 (freshAI hh ww) cell n).isSome = true := by
  unfold addKnowledge
  have hcells : ∀ x ∈ (⟨surroundingCells hh ww cell, n⟩ : Sentence).cells,
      x ∉ (insert cell (∅ : Finset Cell)) ∧ x ∉ (∅ : Finset Cell) := by
    intro x hx
    constructor
    · simp only [Finset.mem_insert, Finset.not_mem_empty, or_false]
      exact mem_surroundingCells hx
    · simp
  have hsetup : setupState (freshAI hh ww) cell n =
      ⟨hh, ww, insert cell ∅, ∅, insert cell ∅, [⟨surroundingCells hh ww cell, n⟩]⟩ := by
    show (⟨hh, ww, insert cell ∅, ∅, insert cell ∅,
      [simplifyNew (insert cell ∅) ∅ ⟨surroundingCells hh ww cell, n⟩]⟩ : AIState) = _
    rw [simplifyNew_skip _ _ _ hcells]
  rw [hsetup]
  exact whileLoop_single_isSome _ (surroundingCells hh ww cell) n rfl

/-! ## Python indexing: when `is_mine` and `nearby_mines` return a value -/

theorem get?_isSome {α : Type} (l : List α) (n : Nat) :
    ((l.get? n).isSome = true) ↔ n < l.length := by
  constructor
  · intro h
    cases hg : l.get? n with
    | none => rw [hg] at h; cases h
    | some a => exact get?_lt_length hg
  · intro h
    obtain ⟨a, ha⟩ := get?_some_of_lt h
    rw [ha]
    rfl

theorem pyGet_isSome_iff {α : Type} (l : List α) (i : Int) :
    ((pyGet l i).isSome = true) ↔ (-(l.length : Int) ≤ i ∧ i < l.length) := by
  unfold pyGet
  by_cases h0 : 0 ≤ i
  · rw [if_pos h0, get?_isSome]
    omega
  · rw [if_neg h0]
    by_cases h1 : 0 ≤ i + l.length
    · rw [if_pos h1, get?_isSome]
      omega
    · rw [if_neg h1]
      simp only [Option.isSome_none, Bool.false_eq_true, false_iff]
      omega

theorem pyGet_mem {α : Type} {l : List α} {i : Int} {a : α}
    (h : pyGet l i = some a) : a ∈ l := by
  unfold pyGet at h
  by_cases h0 : 0 ≤ i
  · rw [if_pos h0] at h
    exact List.get?_mem h
  · rw [if_neg h0] at h
    by_cases h1 : 0 ≤ i + l.length
    · rw [if_pos h1] at h
      exact List.get?_mem h
    · rw [if_neg h1] at h
      cases h

/-- A board whose grid lists match its declared dimensions (always true of
boards built by `Minesweeper.__init__`). -/
def BoardWF (bd : Board) : Prop :=
  bd.board.length = bd.height ∧ ∀ r ∈ bd.board, r.length = bd.width

theorem isMine_isSome_iff {bd : Board} (hwf : BoardWF bd) (c : Cell) :
    ((isMine bd c).isSome = true) ↔
      (-(bd.height : Int) ≤ c.1 ∧ c.1 < bd.height ∧
        -(bd.width : Int) ≤ c.2 ∧ c.2 < bd.width) := by
  obtain ⟨hlen, hrows⟩ := hwf
  show (((pyGet bd.board c.1).bind fun row => pyGet row c.2).isSome = true) ↔ _
  constructor
  · intro h
    cases hrow : pyGet bd.board c.1 with
    | none => rw [hrow] at h; cases h
    | some row =>
      rw [hrow] at h
      simp only [Option.some_bind] at h
      have hr1 : -(bd.board.length : Int) ≤ c.1 ∧ c.1 < bd.board.length := by
        rw [← pyGet_isSome_iff, hrow]
        rfl
      have hr2 := (pyGet_isSome_iff row c.2).mp h
      rw [hrows row (pyGet_mem hrow)] at hr2
      rw [hlen] at hr1
      exact ⟨hr1.1, hr1.2, hr2.1, hr2.2⟩
  · rintro ⟨h1, h2, h3, h4⟩
    have hrow : (pyGet bd.board c.1).isSome = true := by
      rw [pyGet_isSome_iff, hlen]
      exact ⟨h1, h2⟩
    obtain ⟨row, hr⟩ := Option.isSome_iff_exists.mp hrow
    rw [hr]
    simp only [Option.some_bind]
    rw [pyGet_isSome_iff, hrows row (pyGet_mem hr)]
    exact ⟨h3, h4⟩

theorem nearbyMines_isSome {bd : Board} (hwf : BoardWF bd) (c : Cell) :
    (nearbyMines bd c).isSome = true := by
  unfold nearbyMines
  suffices h : ∀ (cands : List Cell) (k : Nat),
      ((cands.foldl (fun acc d =>
        acc.bind fun n =>
          if d = c then some n
          else if 0 ≤ d.1 ∧ d.1 < (bd.height : Int) ∧ 0 ≤ d.2 ∧ d.2 < (bd.width : Int) then
            (isMine bd d).map fun m => if m then n + 1 else n
          else some n) (some k)).isSome = true) by
    exact h _ 0
  intro cands
  induction cands with
  | nil => intro k; rfl
  | cons d rest ih =>
    intro k
    rw [List.foldl_cons]
    simp only [Option.some_bind]
    by_cases hd : d = c
    · rw [if_pos hd]
      exact ih k
    · rw [if_neg hd]
      by_cases hp : 0 ≤ d.1 ∧ d.1 < (bd.height : Int) ∧ 0 ≤ d.2 ∧ d.2 < (bd.width : Int)
      · rw [if_pos hp]
        have hs : (isMine bd d).isSome = true := by
          rw [isMine_isSome_iff hwf]
          obtain ⟨p1, p2, p3, p4⟩ := hp
          exact ⟨by omega, p2, by omega, p4⟩
        obtain ⟨m, hm⟩ := Option.isSome_iff_exists.mp hs
        rw [hm]
        exact ih _
      · rw [if_neg hp]
        exact ih k

/-! ## Mine placement: invariants, correctness, divergence -/

theorem setRow_length (r : List Bool) (j : Nat) : (setRow r j).length = r.length := by
  induction r generalizing j with
  | nil => rfl
  | cons b bs ih =>
    cases j with
    | zero => rfl
    | succ j => simp [setRow, ih]

theorem setGrid_length (g : List (List Bool)) (i j : Nat) :
    (setGrid g i j).length = g.length := by
  induction g generalizing i with
  | nil => rfl
  | cons r rs ih =>
    cases i with
    | zero => rfl
    | succ i => simp [setGrid, ih]

theorem get?_setRow_self (r : List Bool) (j : Nat) (h : j < r.length) :
    (setRow r j).get? j = some true := by
  induction r generalizing j with
  | nil => simp at h
  | cons b bs ih =>
    cases j with
    | zero => rfl
    | succ j =>
      show (setRow bs j).get? j = some true
      exact ih j (by simpa using h)

theorem get?_setRow_other (r : List Bool) (j j' : Nat) (h : j' ≠ j) :
    (setRow r j).get? j' = r.get? j' := by
  induction r generalizing j j' with
  | nil => rfl
  | cons b bs ih =>
    cases j with
    | zero =>
      cases j' with
      | zero => exact absurd rfl h
      | succ j' => rfl
    | succ j =>
      cases j' with
      | zero => rfl
      | succ j' =>
        show (setRow bs j).get? j' = bs.get? j'
        exact ih j j' (by omega)

theorem mem_setGrid {g : List (List Bool)} {i j : Nat} {r : List Bool}
    (h : r ∈ setGrid g i j) : r ∈ g ∨ ∃ r0 ∈ g, r = setRow r0 j := by
  induction g generalizing i with
  | nil => exact absurd h (by simp [setGrid])
  | cons r0 rs ih =>
    cases i with
    | zero =>
      rcases List.mem_cons.mp h with h1 | h1
      · exact Or.inr ⟨r0, by simp, h1⟩
      · exact Or.inl (List.mem_cons_of_mem _ h1)
    | succ i =>
      rcases List.mem_cons.mp h with h1 | h1
      · exact Or.inl (by simp [h1])
      · rcases ih h1 with h2 | ⟨r1, hr1, he⟩
        · exact Or.inl (List.mem_cons_of_mem _ h2)
        · exact Or.inr ⟨r1, List.mem_cons_of_mem _ hr1, he⟩

theorem gridAt_setGrid_self {g : List (List Bool)} {i j : Nat} {b0 : Bool}
    (h : gridAt g i j = some b0) : gridAt (setGrid g i j) i j = some true := by
  induction g generalizing i with
  | nil => exact absurd h (by simp [gridAt])
  | cons r rs ih =>
    cases i with
    | zero =>
      show (setRow r j).get? j = some true
      have hj : j < r.length := by
        have : r.get? j = some b0 := h
        exact get?_lt_length this
      exact get?_setRow_self r j hj
    | succ i =>
      show gridAt (setGrid rs i j) i j = some true
      exact ih h

theorem gridAt_setGrid_other {g : List (List Bool)} {i j i' j' : Nat}
    (hne : ¬(i' = i ∧ j' = j)) :
    gridAt (setGrid g i j) i' j' = gridAt g i' j' := by
  induction g generalizing i i' with
  | nil => rfl
  | cons r rs ih =>
    cases i with
    | zero =>
      cases i' with
      | zero =>
        show (setRow r j).get? j' = r.get? j'
        exact get?_setRow_other r j j' (by omega)
      | succ i' => rfl
    | succ i =>
      cases i' with
      | zero => rfl
      | succ i' =>
        show gridAt (setGrid rs i j) i' j' = gridAt rs i' j'
        exact ih (by omega)

theorem get?_replicate {α : Type} (a : α) (n i : Nat) (h : i < n) :
    (List.replicate n a).get? i = some a := by
  induction n generalizing i with
  | zero => omega
  | succ n ih =>
    cases i with
    | zero => rfl
    | succ i =>
      show (List.replicate n a).get? i = some a
      exact ih i (by omega)

theorem gridAt_initGrid (h w i j : Nat) (hi : i < h) (hj : j < w) :
    gridAt (initGrid h w) i j = some false := by
  unfold gridAt initGrid
  rw [get?_replicate _ _ _ hi]
  simp only [Option.some_bind]
  exact get?_replicate _ _ _ hj

/-- The mine-placement invariant: the grid has the declared shape, mine
coordinates are in bounds, and the grid is `True` exactly on the mine
set. -/
def GridInv (h w : Nat) (mines : Finset Cell) (g : List (List Bool)) : Prop :=
  g.length = h ∧ (∀ r ∈ g, r.length = w) ∧
    (∀ c ∈ mines, 0 ≤ c.1 ∧ c.1 < (h : Int) ∧ 0 ≤ c.2 ∧ c.2 < (w : Int)) ∧
    (∀ i j : Nat, i < h → j < w →
      (gridAt g i j = some true ↔ ((i : Int), (j : Int)) ∈ mines))

theorem GridInv_init (h w : Nat) : GridInv h w ∅ (initGrid h w) := by
  refine ⟨by simp [initGrid], ?_, by simp, ?_⟩
  · intro r hr
    rw [List.eq_of_mem_replicate hr]
    simp
  · intro i j hi hj
    rw [gridAt_initGrid h w i j hi hj]
    simp

theorem GridInv_insert {h w : Nat} {mines : Finset Cell} {grid : List (List Bool)}
    {i j : Nat} (inv : GridInv h w mines grid) (hg : gridAt grid i j = some false) :
    GridInv h w (insert ((i : Int), (j : Int)) mines) (setGrid grid i j) := by
  obtain ⟨hlen, hrows, hbound, hiff⟩ := inv
  have hij : i < h ∧ j < w := by
    unfold gridAt at hg
    cases hrow : grid.get? i with
    | none => rw [hrow] at hg; cases hg
    | some r =>
      rw [hrow] at hg
      simp only [Option.some_bind] at hg
      have hi : i < grid.length := get?_lt_length hrow
      have hj : j < r.length := get?_lt_length hg
      rw [hlen] at hi
      rw [hrows r (List.get?_mem hrow)] at hj
      exact ⟨hi, hj⟩
  refine ⟨by rw [setGrid_length, hlen], ?_, ?_, ?_⟩
  · intro r hr
    rcases mem_setGrid hr with h1 | ⟨r0, hr0, he⟩
    · exact hrows r h1
    · rw [he, setRow_length]
      exact hrows r0 hr0
  · intro c hc
    rcases Finset.mem_insert.mp hc with rfl | hc2
    · refine ⟨by omega, ?_, by omega, ?_⟩ <;> simp only [] <;> omega
    · exact hbound c hc2
  · intro i' j' hi' hj'
    by_cases he : i' = i ∧ j' = j
    · obtain ⟨rfl, rfl⟩ := he
      rw [gridAt_setGrid_self hg]
      simp
    · rw [gridAt_setGrid_other he, hiff i' j' hi' hj']
      constructor
      · intro h2
        exact Finset.mem_insert_of_mem h2
      · intro h2
        rcases Finset.mem_insert.mp h2 with h3 | h3
        · exfalso
          apply he
          have e1 : (i' : Int) = i := congrArg Prod.fst h3
          have e2 : (j' : Int) = j := congrArg Prod.snd h3
          omega
        · exact h3

theorem placeLoop_succ (fuel : Nat) (src : Nat → Nat × Nat) (target k : Nat)
    (mines : Finset Cell) (grid : List (List Bool)) :
    placeLoop (fuel + 1) src target k mines grid =
      if mines.card = target then some (mines, grid)
      else
        match gridAt grid (src k).1 (src k).2 with
        | none => none
        | some true => placeLoop fuel src target (k + 1) mines grid
        | some false =>
          placeLoop fuel src target (k + 1)
            (insert (((src k).1 : Int), ((src k).2 : Int)) mines)
            (setGrid grid (src k).1 (src k).2) := rfl

theorem placeLoop_spec {h w : Nat} {fuel : Nat} {src : Nat → Nat × Nat}
    {target k : Nat} {mines : Finset Cell} {grid : List (List Bool)}
    {res : Finset Cell × List (List Bool)}
    (hp : placeLoop fuel src target k mines grid = some res)
    (inv : GridInv h w mines grid) :
    res.1.card = target ∧ GridInv h w res.1 res.2 := by
  induction fuel generalizing k mines grid with
  | zero => exact absurd hp (by simp [placeLoop])
  | succ f ih =>
    rw [placeLoop_succ] at hp
    by_cases hc : mines.card = target
    · rw [if_pos hc] at hp
      cases hp
      exact ⟨hc, inv⟩
    · rw [if_neg hc] at hp
      cases hg : gridAt grid (src k).1 (src k).2 with
      | none => rw [hg] at hp; cases hp
      | some b =>
        rw [hg] at hp
        cases b with
        | true => exact ih hp inv
        | false => exact ih hp (GridInv_insert inv hg)

theorem card_le_bound {h w : Nat} {mines : Finset Cell}
    (hb : ∀ c ∈ mines, 0 ≤ c.1 ∧ c.1 < (h : Int) ∧ 0 ≤ c.2 ∧ c.2 < (w : Int)) :
    mines.card ≤ h * w := by
  have hsub : mines ⊆
      (Finset.range h ×ˢ Finset.range w).image fun p => ((p.1 : Int), (p.2 : Int)) := by
    intro c hc
    obtain ⟨h1, h2, h3, h4⟩ := hb c hc
    rw [Finset.mem_image]
    refine ⟨(c.1.toNat, c.2.toNat), ?_, ?_⟩
    · rw [Finset.mem_product, Finset.mem_range, Finset.mem_range]
      constructor <;> omega
    · rw [Prod.ext_iff]
      constructor <;> simp only [] <;> omega
  calc mines.card ≤ _ := Finset.card_le_card hsub
    _ ≤ (Finset.range h ×ˢ Finset.range w).card := Finset.card_image_le
    _ = h * w := by rw [Finset.card_product, Finset.card_range, Finset.card_range]

theorem placeLoop_none_of_big {h w : Nat} {fuel : Nat} {src : Nat → Nat × Nat}
    {target k : Nat} {mines : Finset Cell} {grid : List (List Bool)}
    (hm : h * w < target) (inv : GridInv h w mines grid) :
    placeLoop fuel src target k mines grid = none := by
  induction fuel generalizing k mines grid with
  | zero => rfl
  | succ f ih =>
    rw [placeLoop_succ]
    have hcard : mines.card ≤ h * w := card_le_bound inv.2.2.1
    rw [if_neg (by omega)]
    cases hg : gridAt grid (src k).1 (src k).2 with
    | none => rfl
    | some b =>
      cases b with
      | true => exact ih inv
      | false => exact ih (GridInv_insert inv hg)

theorem mkBoard_none {fuel h w m : Nat} {src : Nat → Nat × Nat} (hm : h * w < m) :
    mkBoard fuel h w m src = none := by
  unfold mkBoard
  rw [placeLoop_none_of_big hm (GridInv_init h w)]
  rfl

theorem mem_get? {α : Type} {l : List α} {a : α} (h : a ∈ l) :
    ∃ n, l.get? n = some a := by
  obtain ⟨⟨n, hn⟩, he⟩ := List.get_of_mem h
  exact ⟨n, by rw [List.get?_eq_get hn, he]⟩

theorem mem_purge_iff (kb : List Sentence) (s : Sentence) :
    s ∈ purge kb ↔ s ∈ kb ∧ s.cells ≠ ∅ := by
  unfold purge sentenceEqInt
  rw [List.mem_filter]
  constructor
  · rintro ⟨h1, h2⟩
    refine ⟨h1, ?_⟩
    simp only [Bool.not_eq_true', decide_eq_false_iff_not] at h2
    intro he
    exact h2 (by simp [he])
  · rintro ⟨h1, h2⟩
    refine ⟨h1, ?_⟩
    simp only [Bool.not_eq_true', decide_eq_false_iff_not]
    intro he
    apply h2
    have he2 : s.cells.card = 0 := by exact_mod_cast he
    rwa [Finset.card_eq_zero] at he2

/-! ## Claims -/

def cA : Cell := (0, 0)
def cB : Cell := (0, 1)
def cC : Cell := (0, 2)
def kbC1 : List Sentence := [⟨{cA, cB, cC}, 1⟩, ⟨{cA, cB}, 1⟩]
def st0C1 : AIState := ⟨3, 3, ∅, ∅, ∅, kbC1⟩
def st1C1 : AIState := ⟨3, 3, ∅, ∅, ∅, [⟨{cA, cB, cC}, 1⟩, ⟨{cA, cB}, 1⟩, ⟨{cC}, 0⟩]⟩
def stFinC1 : AIState := ⟨3, 3, ∅, ∅, {cC}, [⟨{cA, cB}, 1⟩, ⟨{cA, cB}, 1⟩]⟩

/-- C1.  Subset-subtraction inference: for an agent whose knowledge base
holds `{A,B,C}=1` and `{A,B}=1`, one pass of `add_knowledge`'s fixed-point
loop derives the sentence `{C}=0` (and reports non-convergence, so the loop
runs again and marks `C` safe: the loop run to its fixed point puts `C` in
the agent's `safes`).  In general, whenever the subtraction stage of a pass
terminates, then for every ordered pair of distinct sentences `(A, B)` of
the knowledge base it started from with `A.cells ⊆ B.cells`, the derived
sentence `B − A` is in the resulting knowledge base (appended unless an
equal sentence was already present). -/
theorem c1_subset_subtraction :
    (runPass 20 st0C1 = some (st1C1, false) ∧
      (⟨{cC}, 0⟩ : Sentence) ∈ st1C1.knowledge ∧
      whileLoop 20 st0C1 = some stFinC1 ∧ cC ∈ stFinC1.safes) ∧
    ∀ (fuel : Nat) (kb : List Sentence) (ch : Bool) (r : List Sentence × Bool),
      outerD fuel kb 0 ch = some r →
      ∀ a b : Sentence, a ∈ kb → b ∈ kb → a ≠ b → a.cells ⊆ b.cells →
        b.sub a ∈ r.1 := by
  constructor
  · exact ⟨by decide, by decide, by decide, by decide⟩
  · intro fuel kb ch r h a b ha hb hne hsub
    obtain ⟨m, hm⟩ := mem_get? ha
    obtain ⟨n, hn⟩ := mem_get? hb
    exact (outerD_spec h).2 hm hn (by omega) hne hsub

/-- Witness for C1: the subtraction stage applied to the C1 knowledge base
produces `{A,B,C}=1 − {A,B}=1 = {C}=0` in its output. -/
theorem c1_subset_subtraction_witness :
    (⟨{cA, cB, cC}, 1⟩ : Sentence).sub ⟨{cA, cB}, 1⟩ ∈
      [(⟨{cA, cB, cC}, 1⟩ : Sentence), ⟨{cA, cB}, 1⟩, ⟨{cC}, 0⟩] :=
  c1_subset_subtraction.2 20 kbC1 false
    ([⟨{cA, cB, cC}, 1⟩, ⟨{cA, cB}, 1⟩, ⟨{cC}, 0⟩], false) (by decide)
    ⟨{cA, cB}, 1⟩ ⟨{cA, cB, cC}, 1⟩ (by decide) (by decide) (by decide) (by decide)

def neigh8 : Finset Cell :=
  {(0, 0), (0, 1), (0, 2), (1, 0), (1, 2), (2, 0), (2, 1), (2, 2)}

/-- The agent state after `addKnowledge((1,1), 0)` on a fresh 3×3 agent
(the call succeeds — first conjunct of the theorem below — so the default
is never taken). -/
def stC2 : AIState := (addKnowledge 30 (freshAI 3 3) (1, 1) 0).getD (freshAI 3 3)

/-- C2.  End-to-end scenario: on a 3×3 agent, `addKnowledge((1,1), 0)`
returns, records `(1,1)` in `moves_made`, marks all 8 surrounding cells
safe, and a subsequent `make_safe_move` returns one of those 8 cells —
never `(1,1)`, which is already moved on (indeed the whole candidate set
`safes \ moves_made` is exactly the 8 neighbours) — without mutating the
agent. -/
theorem c2_end_to_end_scenario :
    (addKnowledge 30 (freshAI 3 3) (1, 1) 0).isSome = true ∧
    stC2.moves_made = {(1, 1)} ∧
    neigh8 ⊆ stC2.safes ∧
    stC2.safes \ stC2.moves_made = neigh8 ∧
    (makeSafeMove stC2).1 = some (0, 0) ∧
    (0, 0) ∈ neigh8 ∧ ((0, 0) : Cell) ≠ (1, 1) ∧
    (makeSafeMove stC2).2 = stC2 :=
  ⟨by decide, by decide, by decide, by decide, by decide, by decide, by decide, rfl⟩

/-- The agent state after calling `addKnowledge((0,0), 1)` twice on a fresh
2×2 agent (the run succeeds — first conjunct of the theorem below). -/
def dupState : AIState :=
  (runOps 30 (freshAI 2 2) [.addK (0, 0) 1, .addK (0, 0) 1]).getD (freshAI 2 2)

/-- Counterexample to C3: after the call sequence `addKnowledge((0,0), 1)`,
`addKnowledge((0,0), 1)` on a fresh 2×2 agent, the knowledge base holds the
same sentence twice — `add_knowledge` appends its new sentence without any
duplicate check, so the claimed no-exact-duplicates invariant fails. -/
theorem c3_duplicate_counterexample :
    (runOps 30 (freshAI 2 2) [.addK (0, 0) 1, .addK (0, 0) 1]).isSome = true ∧
    dupState.knowledge = [sN1, sN1] ∧
    ¬ dupState.knowledge.Nodup :=
  ⟨by decide, by decide, by decide⟩

/-- C3 (amended).  What does hold: the subset-subtraction stage never
appends a sentence equal to one already present (it preserves
duplicate-freedom of the knowledge base), and the per-pass purge removes
exactly the empty-cell-set sentences; but the unconditional append in
step 3 of `add_knowledge` can duplicate an existing entry (see the
counterexample), so the global invariant fails. -/
theorem c3_kb_uniqueness_amended :
    (∀ (fuel : Nat) (kb : List Sentence) (ch : Bool) (r : List Sentence × Bool),
      outerD fuel kb 0 ch = some r → kb.Nodup → r.1.Nodup) ∧
    (∀ (kb : List Sentence) (s : Sentence), s ∈ purge kb ↔ s ∈ kb ∧ s.cells ≠ ∅) := by
  constructor
  · intro fuel kb ch r h hnd
    exact outerD_nodup h hnd
  · exact mem_purge_iff

/-- Witness for C3 (amended), at a one-sentence knowledge base. -/
theorem c3_kb_uniqueness_amended_witness :
    ([(⟨{((0 : Int), (0 : Int))}, (1 : Int)⟩ : Sentence)]).Nodup :=
  c3_kb_uniqueness_amended.1 10 [⟨{((0 : Int), (0 : Int))}, (1 : Int)⟩] true
    ([⟨{((0 : Int), (0 : Int))}, (1 : Int)⟩], true) (by decide) (by decide)

def overlapState : AIState := ((freshAI 2 2).mark_safe (0, 0)).mark_mine (0, 0)

/-- Counterexample to C4: the operation sequence `markSafe((0,0))`,
`markMine((0,0))` puts `(0,0)` into both `safes` and `mines` — neither
marking primitive checks the other set, so the two sets do not remain
disjoint for every operation sequence. -/
theorem c4_disjointness_counterexample :
    runOps 5 (freshAI 2 2) [.mSafe (0, 0), .mMine (0, 0)] = some overlapState ∧
    (0, 0) ∈ overlapState.safes ∧ (0, 0) ∈ overlapState.mines ∧
    overlapState.safes ∩ overlapState.mines ≠ ∅ :=
  ⟨rfl, by decide, by decide, by decide⟩

/-- C4 (amended).  The monotonicity half of the claim holds: over every
sequence of agent operations (markMine, markSafe, addKnowledge) that
returns, the `safes` and `mines` sets only grow — a cell once added is
never removed.  (The disjointness half fails; see the counterexample.) -/
theorem c4_monotonicity :
    ∀ (fuel : Nat) (ops : List AgentOp) (st st' : AIState),
      runOps fuel st ops = some st' →
      st.safes ⊆ st'.safes ∧ st.mines ⊆ st'.mines :=
  fun _ _ _ _ h => runOps_mono h

/-- Witness for C4 (amended): a one-operation run on a fresh agent. -/
theorem c4_monotonicity_witness :
    (freshAI 2 2).safes ⊆ ((freshAI 2 2).mark_safe (0, 0)).safes ∧
      (freshAI 2 2).mines ⊆ ((freshAI 2 2).mark_safe (0, 0)).mines :=
  c4_monotonicity 5 [.mSafe (0, 0)] (freshAI 2 2) ((freshAI 2 2).mark_safe (0, 0)) rfl

/-- Counterexample to C5: comparing a sentence against a bare integer `n`
is defined — it answers `len(cells) == n`, ignoring the count entirely
(here a sentence with count 7 compares equal to the integer 2 because it
has 2 cells) — and the knowledge-base purge uses exactly this overloaded
comparison against `0`, so it also drops an empty-cell sentence whose count
is 5. -/
theorem c5_eq_overload_counterexample :
    sentenceEqInt ⟨{((0 : Int), (0 : Int)), ((0 : Int), (1 : Int))}, 7⟩ 2 = true ∧
    purge [⟨∅, 5⟩] = [] :=
  ⟨by decide, by decide⟩

/-- C5 (amended).  Sentence-to-sentence equality is structural (equal cell
sets and equal counts); but equality against a bare integer is overloaded —
it depends only on the number of cells, never on the count — and the purge
keeps exactly the sentences with a nonempty cell set, trivial-sentence
detection going through that overloaded equality rather than a dedicated
predicate. -/
theorem c5_equality_amended :
    (∀ s t : Sentence, sentenceEq s t = true ↔ s = t) ∧
    (∀ (cs : Finset Cell) (c1 c2 n : Int),
      sentenceEqInt ⟨cs, c1⟩ n = sentenceEqInt ⟨cs, c2⟩ n) ∧
    (∀ (kb : List Sentence) (s : Sentence), s ∈ purge kb ↔ s ∈ kb ∧ s.cells ≠ ∅) := by
  refine ⟨?_, fun cs c1 c2 n => rfl, mem_purge_iff⟩
  intro s t
  unfold sentenceEq
  cases s with
  | mk cs1 n1 =>
    cases t with
    | mk cs2 n2 =>
      simp [Sentence.mk.injEq]

/-- Witness for C5 (amended): structural equality at a concrete pair. -/
theorem c5_equality_amended_witness :
    sentenceEq ⟨{((0 : Int), (0 : Int))}, 1⟩ ⟨{((0 : Int), (0 : Int))}, 1⟩ = true :=
  (c5_equality_amended.1 ⟨{((0 : Int), (0 : Int))}, 1⟩ ⟨{((0 : Int), (0 : Int))}, 1⟩).mpr rfl

/-- Counterexample to C6: `addKnowledge` does not terminate for every
argument pair.  On a fresh 2×2 agent, `addKnowledge((0,0), 1)` returns
normally (reaching `badStart`), but the inconsistent revisit
`addKnowledge((0,0), 2)` never returns: its subset-subtraction loop keeps
appending fresh sentences (`⟨∅,1⟩` subtracted from ever more sentences) and
iterates over the growing list forever — no amount of fuel makes it
yield. -/
theorem c6_nontermination_counterexample :
    addKnowledge 30 (freshAI 2 2) (0, 0) 1 = some badStart ∧
    ¬ ∃ (fuel : Nat) (st : AIState), addKnowledge fuel badStart (0, 0) 2 = some st := by
  constructor
  · decide
  · rintro ⟨fuel, st, h⟩
    rw [addKnowledge_badStart_diverges fuel] at h
    cases h

/-- C6 (amended).  `addKnowledge` can fail to terminate (see the
counterexample: a revisited cell with an inconsistent count makes the
fixed-point loop grow the knowledge base forever).  What does hold: a first
`addKnowledge` call on a fresh agent always terminates and returns
normally, for every cell and count — consistent or not — reaching a fixed
point within two passes. -/
theorem c6_termination_amended :
    ∀ (h w : Nat) (cell : Cell) (n : Int),
      (addKnowledge 10 (freshAI h w) cell n).isSome = true :=
  addKnowledge_fresh_isSome

def bBad : Board := ⟨2, 2, {((1 : Int), (0 : Int))}, [[false, false], [true, false]], ∅⟩

/-- Counterexample to C7: out-of-range coordinates do not always raise.
On a 2×2 board, `is_mine((-1, 0))` — row index −1 is outside `[0, height)`
— silently returns the last row's cell (Python negative indexing), here the
mine at `(1, 0)`; and `nearby_mines((5, 5))`, far outside the grid, raises
nothing and silently returns 0 (its bounds guard just skips every
neighbour). -/
theorem c7_negative_index_counterexample :
    ((-1 : Int) < 0 ∨ (2 : Int) ≤ -1) ∧
    isMine bBad (-1, 0) = some true ∧
    nearbyMines bBad (5, 5) = some 0 :=
  ⟨Or.inl (by decide), by decide, by decide⟩

/-- C7 (amended).  On a well-formed board, `is_mine` raises an indexing
error exactly when the row index is outside `[-height, height)` or (for an
in-range row) the column index is outside `[-width, width)`: indices in
`[-height, -1]` wrap around Python-style and return a value.
`nearby_mines` never raises at all — for every cell, in range or not, it
returns a count. -/
theorem c7_bounds_amended :
    ∀ (bd : Board), BoardWF bd →
      (∀ c : Cell, ((isMine bd c).isSome = true) ↔
        (-(bd.height : Int) ≤ c.1 ∧ c.1 < bd.height ∧
          -(bd.width : Int) ≤ c.2 ∧ c.2 < bd.width)) ∧
      (∀ c : Cell, (nearbyMines bd c).isSome = true) :=
  fun _ hwf => ⟨fun c => isMine_isSome_iff hwf c, fun c => nearbyMines_isSome hwf c⟩

/-- Witness for C7 (amended), on the concrete 2×2 board: a wrapped read at
`(-1, 0)` yields a value, and `nearby_mines` yields a count at an
out-of-range cell. -/
theorem c7_bounds_amended_witness :
    ((isMine bBad (-1, 0)).isSome = true) ∧ (nearbyMines bBad (5, 5)).isSome = true :=
  ⟨((c7_bounds_amended bBad ⟨rfl, by decide⟩).1 (-1, 0)).mpr (by decide),
    (c7_bounds_amended bBad ⟨rfl, by decide⟩).2 (5, 5)⟩

def src00 : Nat → Nat × Nat := fun _ => (0, 0)

theorem placeLoop_src00_stuck : ∀ (fuel k : Nat),
    placeLoop fuel src00 2 k {((0 : Int), (0 : Int))} (setGrid (initGrid 2 1) 0 0) = none := by
  intro fuel
  induction fuel with
  | zero => intro k; rfl
  | succ f ih =>
    intro k
    rw [placeLoop_succ]
    rw [if_neg (by decide)]
    rw [show gridAt (setGrid (initGrid 2 1) 0 0) (src00 k).1 (src00 k).2 = some true from rfl]
    exact ih (k + 1)

/-- Counterexample to C8: with `mines = 2 ≤ 2 = height × width`, a random
source that keeps drawing `(0, 0)` forever makes the placement loop spin
without terminating — after the first draw is placed, every further draw
hits an already-mined cell and is discarded, so the claim that construction
terminates for any random source whenever `mines ≤ height × width` is
false. -/
theorem c8_construction_counterexample :
    2 ≤ 2 * 1 ∧
    ¬ ∃ (fuel : Nat) (bd : Board), mkBoard fuel 2 1 2 src00 = some bd := by
  refine ⟨by omega, ?_⟩
  rintro ⟨fuel, bd, h⟩
  unfold mkBoard at h
  cases fuel with
  | zero => simp [placeLoop] at h
  | succ f =>
    rw [placeLoop_succ, if_neg (by decide),
      show gridAt (initGrid 2 1) (src00 0).1 (src00 0).2 = some false from rfl] at h
    have hst : placeLoop f src00 2 1
        (insert (((src00 0).1 : Int), ((src00 0).2 : Int)) (∅ : Finset Cell))
        (setGrid (initGrid 2 1) (src00 0).1 (src00 0).2) = none :=
      placeLoop_src00_stuck f 1
    rw [hst] at h
    simp at h

/-- C8 (amended).  Whenever construction does terminate (for any fuel and
any random source), the board it returns carries exactly `mines` distinct
in-bounds cells in its mine set, its grid is `True` exactly on that set,
its dimensions are as requested and `mines_found` starts empty; and when
`mines > height × width`, placement never terminates, for every random
source.  (Termination for every random source, as claimed, fails: see the
counterexample.) -/
theorem c8_construction_amended :
    (∀ (fuel h w m : Nat) (src : Nat → Nat × Nat) (bd : Board),
      mkBoard fuel h w m src = some bd →
      bd.mines.card = m ∧ bd.height = h ∧ bd.width = w ∧ bd.mines_found = ∅ ∧
        (∀ c ∈ bd.mines, 0 ≤ c.1 ∧ c.1 < (h : Int) ∧ 0 ≤ c.2 ∧ c.2 < (w : Int)) ∧
        (∀ i j : Nat, i < h → j < w →
          (gridAt bd.board i j = some true ↔ ((i : Int), (j : Int)) ∈ bd.mines))) ∧
    (∀ (fuel h w m : Nat) (src : Nat → Nat × Nat), h * w < m →
      mkBoard fuel h w m src = none) := by
  constructor
  · intro fuel h w m src bd hb
    unfold mkBoard at hb
    cases hpl : placeLoop fuel src m 0 ∅ (initGrid h w) with
    | none => rw [hpl] at hb; simp at hb
    | some mg =>
      rw [hpl] at hb
      simp only [Option.map_some'] at hb
      obtain ⟨hcard, hinv⟩ := placeLoop_spec hpl (GridInv_init h w)
      cases hb
      exact ⟨hcard, rfl, rfl, rfl, hinv.2.2.1, hinv.2.2.2⟩
  · intro fuel h w m src hm
    exact mkBoard_none hm

/-- Witness for C8 (amended): a 1×1 board built with one mine has mine-set
size 1, and asking for 2 mines on a 1×1 board returns no board. -/
theorem c8_construction_amended_witness :
    ((mkBoard 5 1 1 1 src00).getD bBad).mines.card = 1 ∧
      mkBoard 3 1 1 2 src00 = none :=
  ⟨(c8_construction_amended.1 5 1 1 1 src00 ((mkBoard 5 1 1 1 src00).getD bBad)
      (by decide)).1,
    c8_construction_amended.2 3 1 1 2 src00 (by omega)⟩

/-- C10.  `make_safe_move` returns the agent unchanged together with: some
cell that is known safe and not yet moved on, whenever such a cell exists;
and the absent-value `none` exactly when no such cell exists. -/
theorem c10_make_safe_move :
    ∀ st : AIState,
      (makeSafeMove st).2 = st ∧
      (∀ c : Cell, (makeSafeMove st).1 = some c → c ∈ st.safes ∧ c ∉ st.moves_made) ∧
      ((st.safes \ st.moves_made).Nonempty → ∃ c, (makeSafeMove st).1 = some c) ∧
      (st.safes \ st.moves_made = ∅ → (makeSafeMove st).1 = none) := by
  intro st
  refine ⟨rfl, ?_, ?_, ?_⟩
  · intro c hc
    have hmem : c ∈ sortCells (st.safes \ st.moves_made) := by
      cases hl : sortCells (st.safes \ st.moves_made) with
      | nil =>
        exfalso
        have hnone : (makeSafeMove st).1 = none := by
          show (sortCells (st.safes \ st.moves_made)).head? = none
          rw [hl]
          rfl
        rw [hnone] at hc
        cases hc
      | cons x xs =>
        have hx : (makeSafeMove st).1 = some x := by
          show (sortCells (st.safes \ st.moves_made)).head? = some x
          rw [hl]
          rfl
        rw [hx] at hc
        cases hc
        exact List.mem_cons_self c xs
    rw [mem_sortCells, Finset.mem_sdiff] at hmem
    exact hmem
  · intro hne
    have hlen : 0 < (sortCells (st.safes \ st.moves_made)).length := by
      rw [sortCells_length]
      exact Finset.card_pos.mpr hne
    cases hl : sortCells (st.safes \ st.moves_made) with
    | nil => rw [hl] at hlen; simp at hlen
    | cons x xs =>
      refine ⟨x, ?_⟩
      show (sortCells (st.safes \ st.moves_made)).head? = some x
      rw [hl]
      rfl
  · intro he
    show (sortCells (st.safes \ st.moves_made)).head? = none
    rw [he, sortCells_empty]
    rfl

def stMove : AIState := ⟨2, 2, ∅, ∅, {((0 : Int), (0 : Int))}, []⟩

/-- Witness for C10, at an agent knowing one safe unvisited cell. -/
theorem c10_make_safe_move_witness :
    (makeSafeMove stMove).2 = stMove ∧
      (((0 : Int), (0 : Int)) ∈ stMove.safes ∧ ((0 : Int), (0 : Int)) ∉ stMove.moves_made) :=
  ⟨(c10_make_safe_move stMove).1,
    (c10_make_safe_move stMove).2.1 (0, 0) (by decide)⟩

end MinesPort

namespace TweetPort

/-- C9.  Cleaning the tweet `"@user I love #life 123!!"`: step 1 removes
only the two-character match `"@u"` (leaving `"ser"` of `"user"`); the
following steps replace non-letter non-`#` characters with spaces, drop
every token of length 3 or less, drop stop-word tokens, and preserve
`"#life"`, so — for any stop-word list containing neither `"love"` nor
`"#life"`, as the standard English list does not — the cleaned text before
stemming is `"love #life"`. -/
theorem c9_tweet_cleaning :
    ∀ stop : List (List Char),
      (("love").data ∉ stop) → (("#life").data ∉ stop) →
      remove_pattern (("@user I love #life 123!!").data) =
        ("ser I love #life 123!!").data ∧
      cleanBeforeStem stop (("@user I love #life 123!!").data) =
        ("love #life").data := by
  intro stop h1 h2
  refine ⟨by decide, ?_⟩
  unfold cleanBeforeStem
  rw [show dropShort (charFilter (remove_pattern (("@user I love #life 123!!").data))) =
    ("love #life").data from by decide]
  unfold dropStop
  rw [show splitWs (("love #life").data) = [("love").data, ("#life").data] from by decide]
  rw [show List.filter (fun w => decide (w ∉ stop)) [("love").data, ("#life").data] =
      [("love").data, ("#life").data] from by
    rw [List.filter_cons_of_pos (by exact decide_eq_true h1),
      List.filter_cons_of_pos (by exact decide_eq_true h2)]
    rfl]
  decide

/-- Witness for C9, with a small concrete stop-word list. -/
theorem c9_tweet_cleaning_witness :
    cleanBeforeStem [("this").data, ("the").data]
      (("@user I love #life 123!!").data) = ("love #life").data :=
  (c9_tweet_cleaning [("this").data, ("the").data] (by decide) (by decide)).2

end TweetPort
